import Mathlib

/-!
Verification of the xlNumba spreadsheet-to-IR compiler against its
natural-language specification.  Python source files are shallowly embedded:
pure functions become Lean functions, Python exceptions become `Except`
errors, and the mutable IR node graph becomes explicit state passing over a
map from node ids to node records.
-/

namespace XlNumba

/-! ## Shape model (src/pyxloptimizer/shape.py)

`Shape` is a namedtuple with fields `height`, `width` (in that order), so the
Python constructor call `Shape(a, b)` sets `height := a, width := b`.
-/

structure Shape where
  height : Nat
  width : Nat
deriving DecidableEq, Repr

def SCALAR_SHAPE : Shape := ⟨1, 1⟩

/-- `Shape.is_scalar`: `self == SCALAR_SHAPE`. -/
def Shape.is_scalar (s : Shape) : Bool := s == SCALAR_SHAPE

/-- `Shape.is_vector`: exactly one dimension greater than 1. -/
def Shape.is_vector (s : Shape) : Bool :=
  (s.width == 1 && decide (s.height > 1)) || (s.height == 1 && decide (s.width > 1))

/-- `Shape.horizontal`: `self.width > 1 and self.height == 1`. -/
def Shape.horizontal (s : Shape) : Bool := decide (s.width > 1) && s.height == 1

/-- `Shape.vertical`: `self.width == 1 and self.height > 1`. -/
def Shape.vertical (s : Shape) : Bool := s.width == 1 && decide (s.height > 1)

/-- `Shape.size`: `self.width * self.height`. -/
def Shape.size (s : Shape) : Nat := s.width * s.height

/-- The `UnsupportedBroadcastException` raised by `Shape.merge`
(src/xlnumba/exceptions.py), carrying the two offending shapes. -/
inductive MergeError
  | unsupportedBroadcast (a b : Shape)
deriving DecidableEq, Repr

/-- `Shape.merge`, transcribed branch for branch from the source.  Note the
source returns `Shape(self.width, max(self.height, other.height))` in the
matching-width branch: the first constructor argument is the `height` field. -/
def Shape.merge (self other : Shape) : Except MergeError Shape :=
  if self = other then
    .ok self
  else if self.is_scalar then
    .ok other
  else if other.is_scalar then
    .ok self
  else if other.width = self.width ∧ (self.horizontal || other.horizontal) = true then
    .ok ⟨self.width, max self.height other.height⟩
  else if other.height = self.height ∧ (self.vertical || other.vertical) = true then
    .ok ⟨max self.width other.width, self.height⟩
  else if (self.is_vector && other.is_vector) = true ∧ self.vertical ≠ other.vertical then
    .ok ⟨max self.width other.width, max self.height other.height⟩
  else
    .error (.unsupportedBroadcast self other)

/-! ### Arithmetic characterizations of the shape predicates -/

lemma is_scalar_eq_true_iff (s : Shape) : s.is_scalar = true ↔ s.height = 1 ∧ s.width = 1 := by
  obtain ⟨h, w⟩ := s
  simp [Shape.is_scalar, SCALAR_SHAPE, Shape.mk.injEq]

lemma horizontal_eq_true_iff (s : Shape) : s.horizontal = true ↔ 1 < s.width ∧ s.height = 1 := by
  simp [Shape.horizontal]

lemma vertical_eq_true_iff (s : Shape) : s.vertical = true ↔ s.width = 1 ∧ 1 < s.height := by
  simp [Shape.vertical]

lemma is_vector_eq_true_iff (s : Shape) :
    s.is_vector = true ↔ (s.width = 1 ∧ 1 < s.height) ∨ (s.height = 1 ∧ 1 < s.width) := by
  simp [Shape.is_vector, and_comm, or_comm]

lemma bool_ne_iff (x y : Bool) :
    x ≠ y ↔ (x = true ∧ ¬y = true) ∨ (¬x = true ∧ y = true) := by
  cases x <;> cases y <;> simp

/-- Soundness half of a closed-form characterization of `Shape.merge`: every
successful merge satisfies, branch by branch, the corresponding set of linear
constraints over the four input dimensions. -/
theorem merge_ok_arith (ah aw bh bw rh rw : Nat)
    (h : Shape.merge ⟨ah, aw⟩ ⟨bh, bw⟩ = .ok ⟨rh, rw⟩) :
      (ah = bh ∧ aw = bw ∧ rh = ah ∧ rw = aw) ∨
      (¬(ah = bh ∧ aw = bw) ∧ (ah = 1 ∧ aw = 1) ∧ rh = bh ∧ rw = bw) ∨
      (¬(ah = bh ∧ aw = bw) ∧ ¬(ah = 1 ∧ aw = 1) ∧ (bh = 1 ∧ bw = 1) ∧
        rh = ah ∧ rw = aw) ∨
      (¬(ah = bh ∧ aw = bw) ∧ ¬(ah = 1 ∧ aw = 1) ∧ ¬(bh = 1 ∧ bw = 1) ∧
        (bw = aw ∧ ((1 < aw ∧ ah = 1) ∨ (1 < bw ∧ bh = 1))) ∧
        rh = aw ∧ rw = max ah bh) ∨
      (¬(ah = bh ∧ aw = bw) ∧ ¬(ah = 1 ∧ aw = 1) ∧ ¬(bh = 1 ∧ bw = 1) ∧
        ¬(bw = aw ∧ ((1 < aw ∧ ah = 1) ∨ (1 < bw ∧ bh = 1))) ∧
        (bh = ah ∧ ((aw = 1 ∧ 1 < ah) ∨ (bw = 1 ∧ 1 < bh))) ∧
        rh = max aw bw ∧ rw = ah) ∨
      (¬(ah = bh ∧ aw = bw) ∧ ¬(ah = 1 ∧ aw = 1) ∧ ¬(bh = 1 ∧ bw = 1) ∧
        ¬(bw = aw ∧ ((1 < aw ∧ ah = 1) ∨ (1 < bw ∧ bh = 1))) ∧
        ¬(bh = ah ∧ ((aw = 1 ∧ 1 < ah) ∨ (bw = 1 ∧ 1 < bh))) ∧
        ((aw = 1 ∧ 1 < ah) ∨ (ah = 1 ∧ 1 < aw)) ∧
        ((bw = 1 ∧ 1 < bh) ∨ (bh = 1 ∧ 1 < bw)) ∧
        ((aw = 1 ∧ 1 < ah) ∧ ¬(bw = 1 ∧ 1 < bh) ∨ ¬(aw = 1 ∧ 1 < ah) ∧ (bw = 1 ∧ 1 < bh)) ∧
        rh = max aw bw ∧ rw = max ah bh) := by
  simp only [Shape.merge] at h
  split_ifs at h with h1 h2 h3 h4 h5 h6 <;>
    simp only [is_scalar_eq_true_iff, horizontal_eq_true_iff, vertical_eq_true_iff,
      is_vector_eq_true_iff, bool_ne_iff, Bool.or_eq_true, Bool.and_eq_true,
      Bool.not_eq_true, Except.ok.injEq, Shape.mk.injEq] at *
  · exact Or.inl ⟨h1.1, h1.2, h.1.symm, h.2.symm⟩
  · exact Or.inr (Or.inl ⟨h1, h2, h.1.symm, h.2.symm⟩)
  · exact Or.inr (Or.inr (Or.inl ⟨h1, h2, h3, h.1.symm, h.2.symm⟩))
  · exact Or.inr (Or.inr (Or.inr (Or.inl ⟨h1, h2, h3, h4, h.1.symm, h.2.symm⟩)))
  · exact Or.inr (Or.inr (Or.inr (Or.inr (Or.inl ⟨h1, h2, h3, h4, h5, h.1.symm, h.2.symm⟩))))
  · exact Or.inr (Or.inr (Or.inr (Or.inr (Or.inr
      ⟨h1, h2, h3, h4, h5, h6.1.1, h6.1.2, h6.2, h.1.symm, h.2.symm⟩))))


theorem merge_self (a : Shape) : Shape.merge a a = .ok a := by
  simp [Shape.merge]

theorem merge_scalar_left (x : Shape) : Shape.merge SCALAR_SHAPE x = .ok x := by
  by_cases h : SCALAR_SHAPE = x
  · rw [← h]; exact merge_self _
  · simp [Shape.merge, h, Shape.is_scalar]

theorem merge_scalar_right (x : Shape) : Shape.merge x SCALAR_SHAPE = .ok x := by
  by_cases h : x = SCALAR_SHAPE
  · rw [h]; exact merge_self _
  · simp [Shape.merge, h, Shape.is_scalar]

lemma is_scalar_mk (h w : Nat) : Shape.is_scalar ⟨h, w⟩ = true ↔ h = 1 ∧ w = 1 :=
  is_scalar_eq_true_iff _

lemma horizontal_mk (h w : Nat) : Shape.horizontal ⟨h, w⟩ = true ↔ 1 < w ∧ h = 1 :=
  horizontal_eq_true_iff _

lemma vertical_mk (h w : Nat) : Shape.vertical ⟨h, w⟩ = true ↔ w = 1 ∧ 1 < h :=
  vertical_eq_true_iff _

lemma is_vector_mk (h w : Nat) :
    Shape.is_vector ⟨h, w⟩ = true ↔ (w = 1 ∧ 1 < h) ∨ (h = 1 ∧ 1 < w) :=
  is_vector_eq_true_iff _

lemma merge_eq_branch4 (ah aw bh bw : Nat)
    (h1 : ¬((⟨ah, aw⟩ : Shape) = ⟨bh, bw⟩))
    (h2 : ¬(Shape.is_scalar ⟨ah, aw⟩ = true))
    (h3 : ¬(Shape.is_scalar ⟨bh, bw⟩ = true))
    (h4 : (⟨bh, bw⟩ : Shape).width = (⟨ah, aw⟩ : Shape).width ∧
      (Shape.horizontal ⟨ah, aw⟩ || Shape.horizontal ⟨bh, bw⟩) = true) :
    Shape.merge ⟨ah, aw⟩ ⟨bh, bw⟩ = .ok ⟨aw, max ah bh⟩ := by
  simp only [Shape.merge]
  rw [if_neg h1, if_neg h2, if_neg h3, if_pos h4]

lemma merge_eq_branch5 (ah aw bh bw : Nat)
    (h1 : ¬((⟨ah, aw⟩ : Shape) = ⟨bh, bw⟩))
    (h2 : ¬(Shape.is_scalar ⟨ah, aw⟩ = true))
    (h3 : ¬(Shape.is_scalar ⟨bh, bw⟩ = true))
    (h4 : ¬((⟨bh, bw⟩ : Shape).width = (⟨ah, aw⟩ : Shape).width ∧
      (Shape.horizontal ⟨ah, aw⟩ || Shape.horizontal ⟨bh, bw⟩) = true))
    (h5 : (⟨bh, bw⟩ : Shape).height = (⟨ah, aw⟩ : Shape).height ∧
      (Shape.vertical ⟨ah, aw⟩ || Shape.vertical ⟨bh, bw⟩) = true) :
    Shape.merge ⟨ah, aw⟩ ⟨bh, bw⟩ = .ok ⟨max aw bw, ah⟩ := by
  simp only [Shape.merge]
  rw [if_neg h1, if_neg h2, if_neg h3, if_neg h4, if_pos h5]

lemma merge_eq_branch6 (ah aw bh bw : Nat)
    (h1 : ¬((⟨ah, aw⟩ : Shape) = ⟨bh, bw⟩))
    (h2 : ¬(Shape.is_scalar ⟨ah, aw⟩ = true))
    (h3 : ¬(Shape.is_scalar ⟨bh, bw⟩ = true))
    (h4 : ¬((⟨bh, bw⟩ : Shape).width = (⟨ah, aw⟩ : Shape).width ∧
      (Shape.horizontal ⟨ah, aw⟩ || Shape.horizontal ⟨bh, bw⟩) = true))
    (h5 : ¬((⟨bh, bw⟩ : Shape).height = (⟨ah, aw⟩ : Shape).height ∧
      (Shape.vertical ⟨ah, aw⟩ || Shape.vertical ⟨bh, bw⟩) = true))
    (h6 : (Shape.is_vector ⟨ah, aw⟩ && Shape.is_vector ⟨bh, bw⟩) = true ∧
      Shape.vertical ⟨ah, aw⟩ ≠ Shape.vertical ⟨bh, bw⟩) :
    Shape.merge ⟨ah, aw⟩ ⟨bh, bw⟩ = .ok ⟨max aw bw, max ah bh⟩ := by
  simp only [Shape.merge]
  rw [if_neg h1, if_neg h2, if_neg h3, if_neg h4, if_neg h5, if_pos h6]

theorem merge_comm (a b r : Shape) (h : Shape.merge a b = .ok r) :
    Shape.merge b a = .ok r := by
  obtain ⟨ah, aw⟩ := a
  obtain ⟨bh, bw⟩ := b
  obtain ⟨rh, rv⟩ := r
  have H := merge_ok_arith _ _ _ _ _ _ h
  clear h
  rcases H with ⟨e1, e2, e3, e4⟩ | ⟨hne, ⟨s1, s2⟩, e3, e4⟩ | ⟨hne, hsa, ⟨s1, s2⟩, e3, e4⟩
    | ⟨hne, hsa, hsb, ⟨hw, hd⟩, hrh, hrv⟩
    | ⟨hne, hsa, hsb, hn4, ⟨hh, hd⟩, hrh, hrv⟩
    | ⟨hne, hsa, hsb, hn4, hn5, hva, hvb, hvx, hrh, hrv⟩
  · subst e1; subst e2; subst e3; subst e4
    exact merge_self _
  · subst s1; subst s2; subst e3; subst e4
    exact merge_scalar_right _
  · subst s1; subst s2; subst e3; subst e4
    exact merge_scalar_left _
  · rw [merge_eq_branch4 bh bw ah aw
      (by simp only [Shape.mk.injEq]; omega)
      (by rw [is_scalar_mk]; omega)
      (by rw [is_scalar_mk]; omega)
      ⟨hw.symm, by simp only [Bool.or_eq_true, horizontal_mk]; omega⟩]
    simp only [Except.ok.injEq, Shape.mk.injEq]
    omega
  · rw [merge_eq_branch5 bh bw ah aw
      (by simp only [Shape.mk.injEq]; omega)
      (by rw [is_scalar_mk]; omega)
      (by rw [is_scalar_mk]; omega)
      (by simp only [Bool.or_eq_true, horizontal_mk]; omega)
      ⟨hh.symm, by simp only [Bool.or_eq_true, vertical_mk]; omega⟩]
    simp only [Except.ok.injEq, Shape.mk.injEq]
    omega
  · rw [merge_eq_branch6 bh bw ah aw
      (by simp only [Shape.mk.injEq]; omega)
      (by rw [is_scalar_mk]; omega)
      (by rw [is_scalar_mk]; omega)
      (by simp only [Bool.or_eq_true, horizontal_mk]; omega)
      (by simp only [Bool.or_eq_true, vertical_mk]; omega)
      ⟨by simp only [Bool.and_eq_true, is_vector_mk]; omega,
        by simp only [bool_ne_iff, vertical_mk]; omega⟩]
    simp only [Except.ok.injEq, Shape.mk.injEq]
    omega

/-- C2: the spec says a vector merged with a matching-width (resp. height)
shape broadcasts to that width with the varying dimension maximized, e.g.
`merge(Shape(1,3), Shape(5,3)) = Shape(5,3)`, and two opposite vectors give
`Shape(max heights, max widths)`.  The code instead returns the transpose in
every broadcast branch: `Shape(self.width, max(heights))` writes the width
into the `height` field (shape.py line 76), so `merge(Shape(1,3), Shape(5,3))
= Shape(3,5)` and `merge(Shape(3,1), Shape(1,4)) = Shape(4,3)`. -/
theorem c2_merge_vector_transposed :
    Shape.merge ⟨1, 3⟩ ⟨5, 3⟩ = .ok ⟨3, 5⟩ ∧ Shape.merge ⟨1, 3⟩ ⟨5, 3⟩ ≠ .ok ⟨5, 3⟩ ∧
    Shape.merge ⟨3, 1⟩ ⟨1, 4⟩ = .ok ⟨4, 3⟩ ∧ Shape.merge ⟨3, 1⟩ ⟨1, 4⟩ ≠ .ok ⟨3, 4⟩ := by
  refine ⟨rfl, fun h => ?_, rfl, fun h => ?_⟩ <;> injection h with h <;> revert h <;> decide

/-- C5 (counterexample): `Shape.merge` is not associative on every triple where
both groupings are defined.  For the triple `⟨6,1⟩, ⟨6,1⟩, ⟨6,0⟩` every merge
involved succeeds, yet `merge (merge a b) c = ok ⟨1,6⟩` while
`merge a (merge b c) = ok ⟨6,6⟩`. -/
theorem c5_assoc_counterexample :
    Shape.merge ⟨6, 1⟩ ⟨6, 1⟩ = .ok ⟨6, 1⟩ ∧
    Shape.merge ⟨6, 1⟩ ⟨6, 0⟩ = .ok ⟨1, 6⟩ ∧
    Shape.merge ⟨6, 1⟩ ⟨1, 6⟩ = .ok ⟨6, 6⟩ ∧
    (⟨1, 6⟩ : Shape) ≠ (⟨6, 6⟩ : Shape) :=
  ⟨rfl, rfl, rfl, by decide⟩

/-- C5 (amended): `Shape.merge` is commutative in the strong sense that a
successful merge transports across swapping the operands with the same result;
`SCALAR_SHAPE` is a two-sided identity; and `merge ⟨5,4⟩ ⟨4,4⟩` raises
`UnsupportedBroadcastException` carrying the two shapes.  (Associativity,
asserted by the original claim, fails: see the counterexample.) -/
theorem c5_merge_comm_scalar_id :
    (∀ a b r : Shape, Shape.merge a b = .ok r → Shape.merge b a = .ok r) ∧
    (∀ x : Shape, Shape.merge SCALAR_SHAPE x = .ok x ∧ Shape.merge x SCALAR_SHAPE = .ok x) ∧
    Shape.merge ⟨5, 4⟩ ⟨4, 4⟩ = .error (.unsupportedBroadcast ⟨5, 4⟩ ⟨4, 4⟩) :=
  ⟨merge_comm, fun x => ⟨merge_scalar_left x, merge_scalar_right x⟩, rfl⟩

/-- Witness for C5: the commutativity component applied at concrete shapes. -/
theorem c5_merge_comm_scalar_id_witness :
    Shape.merge ⟨5, 3⟩ ⟨1, 3⟩ = .ok ⟨3, 5⟩ :=
  c5_merge_comm_scalar_id.1 ⟨1, 3⟩ ⟨5, 3⟩ ⟨3, 5⟩ rfl



/-! ## Python exceptions

`PyError` models the exceptions the embedded fragments can raise: a bare
`assert` raises `AssertionError`, `min`/`list.index` on a bad input raises
`ValueError`, and the project's own error taxonomy raises
`UnsupportedException` (src/pyxloptimizer/../exceptions.py). -/

inductive PyError
  | assertionError
  | valueError
  | unsupported (msg : String)
deriving DecidableEq, Repr

/-! ## Optimization dispatch (src/xlnumba/optimizations/__init__.py)

`optimize_graph` iterates `OPTIMIZATION_LIST` in insertion order and guards
each pass with `if not disable_optimization or not disable_optimization:`.
The argument is either a `bool` or a collection of pass names; Python only
ever evaluates its truthiness in that guard.  `optimize_graph_trace` records
which passes run. -/

inductive Disable
  | bool (b : Bool)
  | names (s : List String)
deriving DecidableEq, Repr

/-- Python truthiness of the `disable_optimization` argument: a `bool` is
itself, a collection is truthy when non-empty. -/
def Disable.truthy : Disable → Bool
  | .bool b => b
  | .names s => !s.isEmpty

/-- The keys of `OPTIMIZATION_LIST`, in dict insertion order. -/
def OPTIMIZATION_LIST : List String :=
  ["collapse_literals", "merge_array", "array_inplace", "lazy_conditional"]

/-- The sequence of passes `optimize_graph` executes: each pass runs exactly
when `not disable_optimization or not disable_optimization` is true, a
condition that never reads the pass's name. -/
def optimize_graph_trace (disable_optimization : Disable) : List String :=
  OPTIMIZATION_LIST.filter fun _ =>
    !disable_optimization.truthy || !disable_optimization.truthy

/-- The behaviour the specification describes (spec-side definition, for
comparison only): run exactly the passes not named in the collection. -/
def spec_optimize_trace (disable_optimization : Disable) : List String :=
  match disable_optimization with
  | .bool true => []
  | .bool false => OPTIMIZATION_LIST
  | .names s => OPTIMIZATION_LIST.filter fun n => !s.contains n

/-- C3: the guard in `optimize_graph` is the tautology
`not d or not d`, so any truthy collection of pass names (for example
`{"collapse_literals"}`) disables ALL passes, not just the named ones; the
spec-side reading would keep the other three passes running.  The `True` and
`False` sentences of the claim do hold. -/
theorem c3_optimize_gate_skips_all :
    optimize_graph_trace (.names ["collapse_literals"]) = [] ∧
    spec_optimize_trace (.names ["collapse_literals"]) =
      ["merge_array", "array_inplace", "lazy_conditional"] ∧
    optimize_graph_trace (.names ["collapse_literals"]) ≠
      spec_optimize_trace (.names ["collapse_literals"]) ∧
    optimize_graph_trace (.bool true) = [] ∧
    optimize_graph_trace (.bool false) = OPTIMIZATION_LIST := by
  refine ⟨rfl, rfl, ?_, rfl, rfl⟩
  decide

/-! ## Array-region merging: `get_slice`
(src/pyxloptimizer/optimizations/merge_array.py lines 228-244)

Nodes are identified by numeric ids; `get_slice` receives the child's child
ids and the covering node's child ids.  `list.index` returns the first
position of a value and raises `ValueError` when absent; `min([])` also
raises `ValueError`; the contiguity check is a bare `assert`. -/

def list_index : List Nat → Nat → Except PyError Nat
  | [], _ => .error .valueError
  | x :: xs, v => if x = v then .ok 0 else (list_index xs v).map (· + 1)

/-- `get_slice`, transcribed from the source: compute the positions of the
child's children inside the covering node's child list, `assert` they are
contiguous, then return the slice according to the covering shape's
orientation. -/
def get_slice (child_children covering_children : List Nat) (cov_shape : Shape) :
    Except PyError ((Nat × Nat) × (Nat × Nat)) := do
  let indexes ← child_children.mapM fun v => list_index covering_children v
  match indexes with
  | [] => .error .valueError
  | i :: is =>
    let lo := is.foldl min i
    let hi := is.foldl max i
    if indexes = List.range' lo (hi + 1 - lo) then
      if cov_shape.vertical then pure ((lo, hi + 1), (0, 1))
      else if cov_shape.horizontal then pure ((0, 1), (lo, hi + 1))
      else .error .assertionError
    else .error .assertionError

/-- C7: when a cluster member's children occupy non-contiguous positions in
the covering node's child order (here positions 0 and 2 of a 3-element
covering node), `get_slice` fails with `AssertionError` from the bare
`assert`, not with the `UnsupportedException` of the error taxonomy. -/
theorem c7_get_slice_assertion_error :
    get_slice [10, 12] [10, 11, 12] ⟨3, 1⟩ = .error .assertionError ∧
    ∀ msg, PyError.assertionError ≠ PyError.unsupported msg := by
  exact ⟨rfl, fun msg h => PyError.noConfusion h⟩

/-! ## Compilation Unit Keys (src/pyxloptimizer/compiler_frame.py,
src/pyxloptimizer/excel_reference.py)

openpyxl's `Tokenizer` tokens define neither `__eq__` nor `__hash__`, so
Python compares and hashes them by object identity.  `Token` carries an
explicit identity `uid` beside its visible fields; identity equality is
equality of `uid`s and the id-based hash is modeled as the `uid` itself.
Python's opaque `hash(str)` and tuple-hash combinators are parameters
`strHash` and `tupleHash`. -/

structure Token where
  uid : Nat
  value : String
  ttype : String
  subtype : String
deriving DecidableEq, Repr

/-- Identity comparison: what Python's `==` does on two `Token`s. -/
def tokenPyEq (a b : Token) : Bool := a.uid == b.uid

/-- Identity hash: what Python's `hash` does on a `Token`. -/
def tokenPyHash (t : Token) : Nat := t.uid

/-- Value comparison of tokens: what the spec's phrase "identical token
values" denotes (spec-side definition, for comparison only). -/
def tokenValueEq (a b : Token) : Bool :=
  a.value == b.value && a.ttype == b.ttype && a.subtype == b.subtype

/-- Elementwise equality of Python tuples under an element comparison. -/
def listEq (eq : α → α → Bool) : List α → List α → Bool
  | [], [] => true
  | x :: xs, y :: ys => eq x y && listEq eq xs ys
  | _, _ => false

/-- The `(sheet, cell_ref)` state an `ExcelReference` ends up with. -/
structure ExcelRefData where
  sheet : String
  cell_ref : String
deriving DecidableEq, Repr

/-- `ExcelReference.__eq__`: `self._cell_ref == other._cell_ref and
self._sheet == other._sheet`. -/
def excelRefEq (a b : ExcelRefData) : Bool :=
  a.cell_ref == b.cell_ref && a.sheet == b.sheet

/-- `ExcelReference.__repr__`: `f"{self._sheet}!{self._cell_ref}"`. -/
def excelRefRepr (a : ExcelRefData) : String := a.sheet ++ "!" ++ a.cell_ref

/-- `ExcelReference.__hash__`: `hash(str(self))`. -/
def excelRefHash (strHash : String → Nat) (a : ExcelRefData) : Nat :=
  strHash (excelRefRepr a)

/-- `CompilerReference.FunctionCallData`: name plus argument token-groups. -/
structure FunctionCallData where
  name : String
  args : List (List Token)
deriving DecidableEq, Repr

/-- The dataclass-generated `FunctionCallData.__eq__`: structural on
`(name, args)`, where the token tuples compare their `Token`s with Python
`==`, hence by identity. -/
def functionCallDataEq (a b : FunctionCallData) : Bool :=
  a.name == b.name && listEq (listEq tokenPyEq) a.args b.args

/-- `FunctionCallData.__hash__`: `hash(self.name) ^ hash(self.args)`. -/
def functionCallDataHash (strHash : String → Nat) (tupleHash : List Nat → Nat)
    (f : FunctionCallData) : Nat :=
  strHash f.name ^^^ tupleHash (f.args.map fun g => tupleHash (g.map tokenPyHash))

/-- The `data` slot of a `CompilerReference`: the active cell itself for
`Mode.range`, `FunctionCallData` for `Mode.function`, a token tuple for
`Mode.paren`. -/
inductive KeyData
  | range (r : ExcelRefData)
  | func (f : FunctionCallData)
  | paren (ts : List Token)
deriving Repr

/-- A `CompilerReference` as the memo table sees it: the active cell's sheet
plus the mode-dependent data. -/
structure CompilerReferenceK where
  sheet : String
  data : KeyData
deriving Repr

/-- `self.data == other.data`, split by mode.  (Python would compare values
of different modes through the underlying classes; the memo table only ever
confronts keys whose hashes collide, and cross-mode comparison plays no part
in the claim.) -/
def keyDataEq : KeyData → KeyData → Bool
  | .range a, .range b => excelRefEq a b
  | .func a, .func b => functionCallDataEq a b
  | .paren a, .paren b => listEq tokenPyEq a b
  | _, _ => false

/-- `CompilerReference.__eq__`: `self.active_cell.sheet ==
other.active_cell.sheet and self.data == other.data`. -/
def compilerRefEq (a b : CompilerReferenceK) : Bool :=
  a.sheet == b.sheet && keyDataEq a.data b.data

/-- `hash(self.data)` split by mode. -/
def keyDataHash (strHash : String → Nat) (tupleHash : List Nat → Nat) :
    KeyData → Nat
  | .range r => excelRefHash strHash r
  | .func f => functionCallDataHash strHash tupleHash f
  | .paren ts => tupleHash (ts.map tokenPyHash)

/-- `CompilerReference.__hash__`: `hash(self.active_cell.sheet) ^
hash(self.data)`. -/
def compilerRefHash (strHash : String → Nat) (tupleHash : List Nat → Nat)
    (a : CompilerReferenceK) : Nat :=
  strHash a.sheet ^^^ keyDataHash strHash tupleHash a.data

/-- The spec-side reading of key equality: token-groups compared by token
VALUE (spec-side definition, for comparison only). -/
def specKeyEq (a b : CompilerReferenceK) : Bool :=
  a.sheet == b.sheet &&
    match a.data, b.data with
    | .range x, .range y => excelRefEq x y
    | .func x, .func y => x.name == y.name && listEq (listEq tokenValueEq) x.args y.args
    | .paren x, .paren y => listEq tokenValueEq x y
    | _, _ => false

/-- C4 (counterexample): two function-call keys built independently on the
same sheet for the same function name whose argument token-groups hold
DISTINCT token objects with identical values (uids 0 and 1, both the number
literal `1`) are "the same" in the spec's structural sense but do NOT compare
equal under the code's `__eq__`, because tuple equality falls back to token
identity. -/
theorem c4_token_identity_counterexample :
    specKeyEq
      ⟨"Sheet1", .func ⟨"SUM(", [[⟨0, "1", "OPERAND", "NUMBER"⟩]]⟩⟩
      ⟨"Sheet1", .func ⟨"SUM(", [[⟨1, "1", "OPERAND", "NUMBER"⟩]]⟩⟩ = true ∧
    compilerRefEq
      ⟨"Sheet1", .func ⟨"SUM(", [[⟨0, "1", "OPERAND", "NUMBER"⟩]]⟩⟩
      ⟨"Sheet1", .func ⟨"SUM(", [[⟨1, "1", "OPERAND", "NUMBER"⟩]]⟩⟩ = false := by
  exact ⟨rfl, rfl⟩

lemma listEq_refl (eq : α → α → Bool) (hrefl : ∀ x, eq x x = true) :
    ∀ l : List α, listEq eq l l = true := by
  intro l
  induction l with
  | nil => rfl
  | cons x xs ih => simp [listEq, hrefl x, ih]

lemma tokenPyEq_refl (t : Token) : tokenPyEq t t = true := by
  simp [tokenPyEq]

/-- C4 (amended): key equality and hashing are structural for RANGE keys —
two independently built range keys compare equal exactly when they carry the
same sheet and cell-reference strings, and equal keys have equal hashes — and
a function-call key is equal (and hash-equal) to a key holding the very same
token objects; only value-equal-but-distinct token objects fail to collapse
(see the counterexample). -/
theorem c4_key_equality (r1 r2 : ExcelRefData) (s name : String)
    (args : List (List Token)) (strHash : String → Nat) (tupleHash : List Nat → Nat) :
    (compilerRefEq ⟨r1.sheet, .range r1⟩ ⟨r2.sheet, .range r2⟩ = true ↔ r1 = r2) ∧
    (r1 = r2 →
      compilerRefHash strHash tupleHash ⟨r1.sheet, .range r1⟩ =
        compilerRefHash strHash tupleHash ⟨r2.sheet, .range r2⟩) ∧
    compilerRefEq ⟨s, .func ⟨name, args⟩⟩ ⟨s, .func ⟨name, args⟩⟩ = true := by
  refine ⟨?_, ?_, ?_⟩
  · obtain ⟨s1, c1⟩ := r1
    obtain ⟨s2, c2⟩ := r2
    simp [compilerRefEq, keyDataEq, excelRefEq, ExcelRefData.mk.injEq, and_comm]
  · rintro rfl
    rfl
  · simp [compilerRefEq, keyDataEq, functionCallDataEq,
      listEq_refl _ (listEq_refl _ tokenPyEq_refl)]

/-- Witness for C4: the amended theorem applied to concrete range keys. -/
theorem c4_key_equality_witness :
    compilerRefEq ⟨"Sheet1", .range ⟨"Sheet1", "A1"⟩⟩
        ⟨"Sheet1", .range ⟨"Sheet1", "A1"⟩⟩ = true ∧
    compilerRefHash String.length (fun l => l.foldl (· + ·) 0)
        ⟨"Sheet1", .range ⟨"Sheet1", "A1"⟩⟩ =
      compilerRefHash String.length (fun l => l.foldl (· + ·) 0)
        ⟨"Sheet1", .range ⟨"Sheet1", "A1"⟩⟩ :=
  ⟨(c4_key_equality ⟨"Sheet1", "A1"⟩ ⟨"Sheet1", "A1"⟩ "Sheet1" "SUM(" []
      String.length (fun l => l.foldl (· + ·) 0)).1.mpr rfl,
   (c4_key_equality ⟨"Sheet1", "A1"⟩ ⟨"Sheet1", "A1"⟩ "Sheet1" "SUM(" []
      String.length (fun l => l.foldl (· + ·) 0)).2.1 rfl⟩

/-! ## Shunting yard unary operators (src/pyxloptimizer/shunting_yards.py)

`SNode` embeds the node kinds the wrapper manipulates; numeric literals are
rationals (the Python float literals `-1` and `0.01` under real-number
semantics).  The source stores the pending unary operator in a field called
`next_prefix`, here `next_pre`; `apply_prefix` and `apply_postfix` are
`apply_pre_op` and `apply_post_op`. -/

inductive SNode
  | operand (varname : String) (v : ℚ)
  | literal (varname : String) (v : ℚ)
  | binOp (varname : String) (op : String) (l r : SNode)
deriving Repr

def SNode.varname : SNode → String
  | .operand n _ => n
  | .literal n _ => n
  | .binOp n _ _ _ => n

/-- Value semantics of the embedded nodes.  The wrapper only ever builds
`ast.Mult` nodes; other operators play no part in this claim and default
to `0`. -/
def SNode.eval : SNode → ℚ
  | .operand _ v => v
  | .literal _ v => v
  | .binOp _ op l r => if op = "Mult" then l.eval * r.eval else 0

/-- `wrap_node_with_multiplier`: a `BinOpNode` with `ast.Mult` whose right
operand is a fresh `LiteralNode` holding the multiplier; the literal's name
appends the given suffix to the node's variable name. -/
def wrap_node_with_multiplier (node : SNode) (multiplier : ℚ) (suffix : String) :
    SNode :=
  .binOp node.varname "Mult" node (.literal (node.varname ++ suffix) multiplier)

structure ShuntingYardsState where
  operator_stack : List String
  output_stack : List SNode
  next_pre : Option String
deriving Repr

/-- Python truthiness of `self.next_prefix` (a string or `None`). -/
def truthyStr : Option String → Bool
  | none => false
  | some s => !s.isEmpty

/-- `ShuntingYardsOperator.push_output`: when a prefix is pending it must be
`'-'` (a bare `assert`) and the node is wrapped in a multiply-by-`-1` node
before being appended to the output stack; the pending prefix is cleared. -/
def push_output (st : ShuntingYardsState) (node : SNode) :
    Except PyError ShuntingYardsState :=
  if truthyStr st.next_pre then
    if st.next_pre = some "-" then
      .ok { st with
        output_stack := st.output_stack ++ [wrap_node_with_multiplier node (-1) "_neg"],
        next_pre := none }
    else .error .assertionError
  else
    .ok { st with output_stack := st.output_stack ++ [node], next_pre := none }

/-- `ShuntingYardsOperator.apply_prefix`: stores the operator for the next
output. -/
def apply_pre_op (st : ShuntingYardsState) (op : String) : ShuntingYardsState :=
  { st with next_pre := some op }

/-- `ShuntingYardsOperator.apply_postfix`: asserts a non-empty output stack
and that the operator is `'%'`, then replaces the last output with itself
wrapped in a multiply-by-`0.01` node. -/
def apply_post_op (st : ShuntingYardsState) (op : String) :
    Except PyError ShuntingYardsState :=
  match st.output_stack.getLast? with
  | none => .error .assertionError
  | some last =>
    if op = "%" then
      .ok { st with
        output_stack :=
          st.output_stack.dropLast ++ [wrap_node_with_multiplier last (1 / 100) "_pct"] }
    else .error .assertionError

/-- C8: a pending unary minus makes `push_output` push the operand wrapped in
a multiply-by-negative-one node, which evaluates to the operand's negation;
the percent operator rewraps the preceding output with multiplier `0.01`,
which evaluates to the operand divided by 100. -/
theorem c8_unary_wrapping :
    (∀ (st : ShuntingYardsState) (n : SNode) (st' : ShuntingYardsState),
      st.next_pre = some "-" → push_output st n = .ok st' →
        st'.output_stack =
            st.output_stack ++ [wrap_node_with_multiplier n (-1) "_neg"] ∧
          SNode.eval (wrap_node_with_multiplier n (-1) "_neg") = -SNode.eval n) ∧
    (∀ (st st' : ShuntingYardsState) (last : SNode) (rest : List SNode),
      st.output_stack = rest ++ [last] → apply_post_op st "%" = .ok st' →
        st'.output_stack =
            rest ++ [wrap_node_with_multiplier last (1 / 100) "_pct"] ∧
          SNode.eval (wrap_node_with_multiplier last (1 / 100) "_pct") =
            SNode.eval last / 100) := by
  constructor
  · intro st n st' hpre hpush
    rw [push_output, hpre] at hpush
    simp only [truthyStr, String.isEmpty, if_true, if_pos rfl] at hpush
    refine ⟨?_, ?_⟩
    · cases hpush
      rfl
    · simp [wrap_node_with_multiplier, SNode.eval]
  · intro st st' last rest hstack happ
    rw [apply_post_op, hstack] at happ
    rw [List.getLast?_concat] at happ
    simp only [if_pos rfl] at happ
    refine ⟨?_, ?_⟩
    · cases happ
      simp [hstack, List.dropLast_concat]
    · simp [wrap_node_with_multiplier, SNode.eval]
      ring

/-- Witness for C8: both components applied at a concrete state holding the
literal 7. -/
theorem c8_unary_wrapping_witness :
    SNode.eval (wrap_node_with_multiplier (.literal "x" 7) (-1) "_neg") =
        -SNode.eval (.literal "x" 7) ∧
      SNode.eval (wrap_node_with_multiplier (.literal "x" 7) (1 / 100) "_pct") =
        SNode.eval (.literal "x" 7) / 100 :=
  ⟨(c8_unary_wrapping.1 ⟨[], [], some "-"⟩ (.literal "x" 7)
      ⟨[], [wrap_node_with_multiplier (.literal "x" 7) (-1) "_neg"], none⟩ rfl rfl).2,
   (c8_unary_wrapping.2 ⟨[], [.literal "x" 7], none⟩
      ⟨[], [wrap_node_with_multiplier (.literal "x" 7) (1 / 100) "_pct"], none⟩
      (.literal "x" 7) [] rfl rfl).2⟩

/-! ## The main compiler loop (src/pyxloptimizer/compiler.py `_compiler_loop`)

Compilation Unit Keys (`CompilerReference` values) are abstracted to numeric
ids with decidable equality, standing for `__eq__`/`__hash__`-based memo
lookup.  The external collaborators are parameters: `deps k` lists, in
order, the references the compiler frame built for `k` requests
(abstracting `create_compiler_frame` and tokenization), and `special k`
says a reference is resolved directly to a `Node` by a special function
(`_process_next_reference` returning a `Node`).

A frame mirrors a `CompilerFrame`: the key it was created for, the
references it still has to request (`next_reference`), and the node ids
pushed back into it (`push_node`) — these become the children of the node
`finalize` builds.  Beside the `references` memo table the state carries two
ghost logs: `created` records every `references[key] = node` store, and
`pushes` records every memo hit as (requesting frame's key, requested key,
node served). -/

structure LoopFrame where
  key : Nat
  pending : List Nat
  pushed : List Nat
deriving DecidableEq, Repr

structure LoopState where
  references : List (Nat × Nat)
  stack : List LoopFrame
  nextNode : Nat
  created : List (Nat × Nat)
  pushes : List (Nat × Nat × Nat)
deriving DecidableEq, Repr

/-- Memo-table lookup (`next_reference in references`). -/
def lookupRef (refs : List (Nat × Nat)) (k : Nat) : Option Nat :=
  (refs.find? fun e => e.1 == k).map (·.2)

/-- One execution of `_compiler_loop`, fuelled.  Returns `none` when fuel
runs out with work remaining, or when a reference is requested while a frame
for the same key is still open: on such re-entrant (circular) sheets the
source would compile the key a second time, and the claim presupposes the
acyclic sheets Excel itself accepts. -/
def loop_run (deps : Nat → List Nat) (special : Nat → Bool) :
    Nat → LoopState → Option LoopState
  | 0, st => if st.stack.isEmpty then some st else none
  | fuel + 1, st =>
    match st.stack with
    | [] => some st
    | f :: rest =>
      match f.pending with
      | [] =>
        -- next_reference() is None: finalize the frame and memoize its node
        loop_run deps special fuel
          { references := (f.key, st.nextNode) :: st.references,
            stack := rest,
            nextNode := st.nextNode + 1,
            created := (f.key, st.nextNode) :: st.created,
            pushes := st.pushes }
      | k :: ks =>
        match lookupRef st.references k with
        | some n =>
          -- memo hit: frame.push_node(references[k])
          loop_run deps special fuel
            { st with
              stack := { f with pending := ks, pushed := f.pushed ++ [n] } :: rest,
              pushes := (f.key, k, n) :: st.pushes }
        | none =>
          if special k then
            -- special function returned a Node: references[k] = node
            loop_run deps special fuel
              { st with
                references := (k, st.nextNode) :: st.references,
                nextNode := st.nextNode + 1,
                created := (k, st.nextNode) :: st.created }
          else if (f :: rest).any fun fr => fr.key = k then
            none
          else
            -- open a fresh frame for the not-yet-seen reference
            loop_run deps special fuel
              { st with stack := ⟨k, deps k, []⟩ :: f :: rest }

/-- The loop invariant: memo keys are distinct, the memo table is exactly
the log of created nodes, open frames hold keys that are unmemoized,
non-special and pairwise distinct, and every logged memo hit served an entry
of the memo table. -/
def LoopInv (special : Nat → Bool) (st : LoopState) : Prop :=
  (st.references.map Prod.fst).Nodup ∧
  st.created = st.references ∧
  (∀ f ∈ st.stack, lookupRef st.references f.key = none ∧ special f.key = false) ∧
  (st.stack.map LoopFrame.key).Nodup ∧
  (∀ e ∈ st.pushes, (e.2.1, e.2.2) ∈ st.references)

lemma lookupRef_none {refs : List (Nat × Nat)} {k : Nat}
    (h : lookupRef refs k = none) : ∀ n, (k, n) ∉ refs := by
  intro n hmem
  rw [lookupRef, Option.map_eq_none', List.find?_eq_none] at h
  exact absurd (by simp : (((k, n) : Nat × Nat).1 == k) = true) (h _ hmem)

lemma lookupRef_some {refs : List (Nat × Nat)} {k n : Nat}
    (h : lookupRef refs k = some n) : (k, n) ∈ refs := by
  rw [lookupRef, Option.map_eq_some'] at h
  obtain ⟨e, he, hn⟩ := h
  have hmem := List.mem_of_find?_eq_some he
  have hk := List.find?_some he
  simp only [beq_iff_eq] at hk
  have he1 : e = (k, n) := by
    obtain ⟨e1, e2⟩ := e
    simp_all
  rwa [he1] at hmem

lemma lookupRef_cons_ne {refs : List (Nat × Nat)} {k q n : Nat} (h : q ≠ k) :
    lookupRef ((q, n) :: refs) k = lookupRef refs k := by
  simp only [lookupRef]
  rw [List.find?_cons_of_neg]
  simp [h]

lemma key_not_mem_map {refs : List (Nat × Nat)} {k : Nat}
    (h : ∀ n, (k, n) ∉ refs) : k ∉ refs.map Prod.fst := by
  intro hmem
  rw [List.mem_map] at hmem
  obtain ⟨⟨e1, e2⟩, he, hk⟩ := hmem
  subst hk
  exact h e2 he

lemma mem_assoc_unique {l : List (Nat × Nat)} (hn : (l.map Prod.fst).Nodup)
    {k n m : Nat} (h1 : (k, n) ∈ l) (h2 : (k, m) ∈ l) : n = m := by
  induction l with
  | nil => cases h1
  | cons e es ih =>
    rw [List.map_cons, List.nodup_cons] at hn
    rcases List.mem_cons.mp h1 with h1 | h1 <;> rcases List.mem_cons.mp h2 with h2 | h2
    · exact (Prod.ext_iff.mp (h1.trans h2.symm)).2
    · rw [← h1] at hn
      exact absurd (List.mem_map_of_mem Prod.fst h2) hn.1
    · rw [← h2] at hn
      exact absurd (List.mem_map_of_mem Prod.fst h1) hn.1
    · exact ih hn.2 h1 h2

/-- The fuelled runner preserves the loop invariant. -/
lemma loop_run_inv (deps : Nat → List Nat) (special : Nat → Bool) :
    ∀ (fuel : Nat) (st final : LoopState), LoopInv special st →
      loop_run deps special fuel st = some final → LoopInv special final := by
  intro fuel
  induction fuel with
  | zero =>
    intro st final hInv hrun
    rw [loop_run] at hrun
    split at hrun
    · cases hrun
      exact hInv
    · cases hrun
  | succ fuel ih =>
    intro st final hInv hrun
    obtain ⟨hnd, hce, hstk, hsk, hpu⟩ := hInv
    rw [loop_run] at hrun
    split at hrun
    · -- the stack is empty: the loop exits with the state unchanged
      cases hrun
      exact ⟨hnd, hce, hstk, hsk, hpu⟩
    · rename_i x f rest hs
      have hfmem : f ∈ st.stack := hs ▸ List.mem_cons_self f rest
      have hfnone := (hstk f hfmem).1
      have hsk' : ((f :: rest).map LoopFrame.key).Nodup := hs ▸ hsk
      have hfkey : f.key ∉ rest.map LoopFrame.key := by
        rw [List.map_cons, List.nodup_cons] at hsk'
        exact hsk'.1
      have hrestk : (rest.map LoopFrame.key).Nodup := by
        rw [List.map_cons, List.nodup_cons] at hsk'
        exact hsk'.2
      split at hrun
      · -- finalize: store the frame's node under its key and pop the frame
        rename_i hp
        refine ih _ _ ?_ hrun
        refine ⟨?_, ?_, ?_, ?_, ?_⟩
        · exact List.nodup_cons.mpr ⟨key_not_mem_map (lookupRef_none hfnone), hnd⟩
        · simp only [hce]
        · intro g hg
          have hgmem : g ∈ st.stack := hs ▸ List.mem_cons_of_mem f hg
          refine ⟨?_, (hstk g hgmem).2⟩
          have hne : f.key ≠ g.key := by
            intro he
            exact hfkey (he ▸ List.mem_map_of_mem LoopFrame.key hg)
          rw [lookupRef_cons_ne hne]
          exact (hstk g hgmem).1
        · exact hrestk
        · intro e he
          exact List.mem_cons_of_mem _ (hpu e he)
      · rename_i y k ks hp
        split at hrun
        · -- memo hit: the frame absorbs the stored node
          rename_i z n hl
          refine ih _ _ ?_ hrun
          refine ⟨hnd, hce, ?_, ?_, ?_⟩
          · intro g hg
            rcases List.mem_cons.mp hg with hg | hg
            · subst hg
              exact hstk f hfmem
            · exact hstk g (hs ▸ List.mem_cons_of_mem f hg)
          · simpa using hsk'
          · intro e he
            rcases List.mem_cons.mp he with he | he
            · subst he
              exact lookupRef_some hl
            · exact hpu e he
        · rename_i z hl
          split at hrun
          · -- special function: store a fresh node for the key directly
            rename_i hspec
            refine ih _ _ ?_ hrun
            refine ⟨?_, ?_, ?_, ?_, ?_⟩
            · exact List.nodup_cons.mpr ⟨key_not_mem_map (lookupRef_none hl), hnd⟩
            · simp only [hce]
            · intro g hg
              refine ⟨?_, (hstk g hg).2⟩
              have hne : k ≠ g.key := by
                intro he
                have := (hstk g hg).2
                rw [← he] at this
                rw [this] at hspec
                cases hspec
              rw [lookupRef_cons_ne hne]
              exact (hstk g hg).1
            · exact hsk
            · intro e he
              exact List.mem_cons_of_mem _ (hpu e he)
          · split at hrun
            · cases hrun
            · -- fresh frame for a never-seen reference
              rename_i hspec hany
              refine ih _ _ ?_ hrun
              refine ⟨hnd, hce, ?_, ?_, ?_⟩
              · intro g hg
                rcases List.mem_cons.mp hg with hg | hg
                · subst hg
                  exact ⟨hl, by simpa using hspec⟩
                · exact hstk g (hs ▸ hg)
              · rw [List.map_cons, List.nodup_cons]
                refine ⟨?_, hsk'⟩
                intro hmem
                rw [List.mem_map] at hmem
                obtain ⟨fr, hfr, hfrk⟩ := hmem
                exact hany (List.any_eq_true.mpr ⟨fr, hfr, by simp [hfrk]⟩)
              · exact hpu

/-- C1: on any successful run of the compiler loop (well-formed start state,
enough fuel, no re-entrant references), every Compilation Unit Key is
compiled at most once — the log of `references[key] = node` stores holds
pairwise-distinct keys — every memo hit handed a requesting parent exactly
the node stored for that key, and two parents requesting equal keys are
handed the identical node. -/
theorem c1_memo_at_most_once (deps : Nat → List Nat) (special : Nat → Bool)
    (fuel : Nat) (st₀ final : LoopState) (hInv : LoopInv special st₀)
    (hrun : loop_run deps special fuel st₀ = some final) :
    (final.created.map Prod.fst).Nodup ∧
    (∀ e ∈ final.pushes, (e.2.1, e.2.2) ∈ final.created) ∧
    (∀ e1 ∈ final.pushes, ∀ e2 ∈ final.pushes,
      e1.2.1 = e2.2.1 → e1.2.2 = e2.2.2) := by
  obtain ⟨hnd, hce, -, -, hpu⟩ := loop_run_inv deps special fuel st₀ final hInv hrun
  refine ⟨hce ▸ hnd, fun e he => hce ▸ hpu e he, ?_⟩
  intro e1 h1 e2 h2 hk
  exact mem_assoc_unique hnd (hpu e1 h1) (hk ▸ hpu e2 h2)

/-- The diamond sheet: the output 0 references 1 and 2, both of which
reference 3.  Concrete data for the C1 witness. -/
def diamondDeps : Nat → List Nat := fun k =>
  if k = 0 then [1, 2] else if k = 1 then [3] else if k = 2 then [3] else []

def diamondInit : LoopState :=
  { references := [], stack := [⟨0, [1, 2], []⟩], nextNode := 100,
    created := [], pushes := [] }

/-- Witness for C1: running the loop on the diamond sheet compiles the
shared key 3 once; the final `created` log holds pairwise-distinct keys. -/
theorem c1_memo_at_most_once_witness :
    (([(0, 103), (2, 102), (1, 101), (3, 100)] : List (Nat × Nat)).map
      Prod.fst).Nodup :=
  (c1_memo_at_most_once diamondDeps (fun _ => false) 20 diamondInit
    { references := [(0, 103), (2, 102), (1, 101), (3, 100)], stack := [],
      nextNode := 104,
      created := [(0, 103), (2, 102), (1, 101), (3, 100)],
      pushes := [(0, 2, 102), (2, 3, 100), (0, 1, 101), (1, 3, 100)] }
    ⟨by decide, rfl, by decide, by decide, by decide⟩ rfl).1

/-! ## The IR node graph (src/pyxloptimizer/nodes/node.py)

Python node objects form a mutable object graph; the embedding names each
object by a numeric id and carries the whole graph as an association list
from ids to node records.  A node record stores the fields the claims read:
the class of the node (`kind`), the `_children` and `_parents` id lists, and
the `data_type`/`shape`/`in_place` data, with the Function Registry's
`in_place_supported()` verdict carried as `details_in_place` (the registry
is an external collaborator).  Operations that in Python dereference an
object directly are partial over ids; the `none` branches are unreachable
when every referenced id is present, which the theorems' hypotheses
guarantee. -/

inductive NodeKind
  | literal
  | input
  | randomValue
  | randBetween
  | functionOp
  | array
  | output
  | other
deriving DecidableEq, Repr

/-- `DataType` of src/pyxloptimizer/excel_reference.py (`n`, `s`, `b`, `d`,
and the `Blank` marker `X`). -/
inductive DataType
  | Number
  | String
  | Bool
  | Date
  | Blank
deriving DecidableEq, Repr

structure NodeData where
  kind : NodeKind
  children : List Nat
  parents : List Nat
  dtype : DataType
  shape : Shape
  details_in_place : Bool
  in_place : Bool
deriving DecidableEq, Repr

abbrev GraphState := List (Nat × NodeData)

def lookupNode : GraphState → Nat → Option NodeData
  | [], _ => none
  | e :: es, i => if e.1 = i then some e.2 else lookupNode es i

/-- Mutate the object named `i` (a no-op when `i` is not in the graph). -/
def updateNode (g : GraphState) (i : Nat) (f : NodeData → NodeData) : GraphState :=
  g.map fun e => if e.1 = i then (e.1, f e.2) else e

lemma lookupNode_updateNode (g : GraphState) (i j : Nat) (f : NodeData → NodeData) :
    lookupNode (updateNode g i f) j =
      if j = i then (lookupNode g i).map f else lookupNode g j := by
  induction g with
  | nil => simp [lookupNode, updateNode]
  | cons e es ih =>
    obtain ⟨a, d⟩ := e
    by_cases hai : a = i <;> by_cases haj : a = j <;> by_cases hji : j = i <;>
      simp_all [lookupNode, updateNode]

lemma keys_updateNode (g : GraphState) (i : Nat) (f : NodeData → NodeData) :
    (updateNode g i f).map Prod.fst = g.map Prod.fst := by
  rw [updateNode, List.map_map]
  apply List.map_congr_left
  intro e he
  by_cases h : e.1 = i <;> simp [h]

lemma lookupNode_mem {g : GraphState} {i : Nat} {d : NodeData}
    (h : lookupNode g i = some d) : (i, d) ∈ g := by
  induction g with
  | nil => cases h
  | cons e es ih =>
    rw [lookupNode] at h
    split at h
    · cases h
      rename_i he
      exact he ▸ List.mem_cons_self e es
    · exact List.mem_cons_of_mem _ (ih h)

lemma mem_lookupNode {g : GraphState} (hnd : (g.map Prod.fst).Nodup)
    {i : Nat} {d : NodeData} (h : (i, d) ∈ g) : lookupNode g i = some d := by
  induction g with
  | nil => cases h
  | cons e es ih =>
    rw [List.map_cons, List.nodup_cons] at hnd
    rcases List.mem_cons.mp h with h | h
    · rw [← h]
      simp [lookupNode]
    · rw [lookupNode]
      split
      · rename_i he
        exfalso
        exact hnd.1 (he ▸ List.mem_map_of_mem Prod.fst h)
      · exact ih hnd.2 h

/-- `Node.append_parent`: `self._parents.append(parent)`. -/
def append_parent (g : GraphState) (c p : Nat) : GraphState :=
  updateNode g c fun d => { d with parents := d.parents ++ [p] }

/-- `Node.remove_parent`: `self._parents.remove(parent)` drops the first
occurrence.  (Python raises `ValueError` when the parent is absent; under
the count invariant below the parent is always present, where `List.erase`
agrees with `remove`.) -/
def remove_parent (g : GraphState) (c p : Nat) : GraphState :=
  updateNode g c fun d => { d with parents := d.parents.erase p }

/-- `Node.__init__`: store the node with the given children and no parents,
then `child.append_parent(self)` for each child in order. -/
def mk_node (g : GraphState) (nid : Nat) (kind : NodeKind) (dtype : DataType)
    (shape : Shape) (dip : Bool) (children : List Nat) : GraphState :=
  children.foldl (fun acc c => append_parent acc c nid)
    ((nid, ⟨kind, children, [], dtype, shape, dip, false⟩) :: g)

/-- `self._children[self._children.index(old)] = new`: replace the first
occurrence. -/
def replaceFirst : List Nat → Nat → Nat → List Nat
  | [], _, _ => []
  | x :: xs, old, new => if x = old then new :: xs else x :: replaceFirst xs old new

/-- `Node.replace_child`: assert the old child is present, overwrite its
first slot, register the parent on the new child and drop it from the old
one — in the source's order. -/
def replace_child (g : GraphState) (p old new : Nat) : Except PyError GraphState :=
  match lookupNode g p with
  | none => .error .assertionError
  | some d =>
    if old ∈ d.children then
      .ok (remove_parent
            (append_parent
              (updateNode g p fun dd => { dd with children := replaceFirst dd.children old new })
              new p)
            old p)
    else .error .assertionError

/-- `Node.replace_in_graph` (and the identical `Node.replace_self`): snapshot
the parent list, then `parent.replace_child(self, new_node)` for each
snapshot entry. -/
def replace_in_graph (g : GraphState) (old new : Nat) : Except PyError GraphState :=
  match lookupNode g old with
  | none => .error .assertionError
  | some d => d.parents.foldlM (fun acc p => replace_child acc p old new) g

/-! ### The parent/child count invariant -/

/-- The multiset back-pointer invariant: for any two nodes of the graph, the
number of child slots of `p` holding `c` equals the number of entries for
`p` in `c`'s parent list.  This is the inductive strengthening of the
claim's "every child's parent list mentions the parent". -/
def consistent_count (g : GraphState) : Prop :=
  ∀ e1 ∈ g, ∀ e2 ∈ g, (e1 : Nat × NodeData).2.children.count e2.1 = e2.2.parents.count e1.1

instance (g : GraphState) : Decidable (consistent_count g) := by
  unfold consistent_count
  infer_instance

lemma replaceFirst_count_same (l : List Nat) (old : Nat) :
    replaceFirst l old old = l := by
  induction l with
  | nil => rfl
  | cons x xs ih =>
    rw [replaceFirst]
    split
    · rename_i h
      rw [h]
    · rw [ih]

lemma replaceFirst_count_old {l : List Nat} {old : Nat} (new : Nat)
    (hmem : old ∈ l) (hne : old ≠ new) :
    (replaceFirst l old new).count old = l.count old - 1 := by
  induction l with
  | nil => cases hmem
  | cons x xs ih =>
    rw [replaceFirst]
    split
    · rename_i h
      subst h
      simp [List.count_cons, hne, Ne.symm hne]
    · rename_i h
      rcases List.mem_cons.mp hmem with hm | hm
      · exact absurd hm.symm h
      · have h1 : xs.count old ≥ 1 := List.one_le_count_iff.mpr hm
        simp only [List.count_cons, ih hm]
        omega

lemma replaceFirst_count_new {l : List Nat} {old : Nat} (new : Nat)
    (hmem : old ∈ l) (hne : old ≠ new) :
    (replaceFirst l old new).count new = l.count new + 1 := by
  induction l with
  | nil => cases hmem
  | cons x xs ih =>
    rw [replaceFirst]
    split
    · rename_i h
      subst h
      simp [List.count_cons, hne, Ne.symm hne]
    · rename_i h
      rcases List.mem_cons.mp hmem with hm | hm
      · exact absurd hm.symm h
      · simp only [List.count_cons, ih hm]
        omega

lemma replaceFirst_count_other {l : List Nat} {old new x : Nat}
    (hxo : x ≠ old) (hxn : x ≠ new) :
    (replaceFirst l old new).count x = l.count x := by
  induction l with
  | nil => rfl
  | cons y ys ih =>
    rw [replaceFirst]
    split
    · rename_i h
      subst h
      simp [List.count_cons, hxo, hxn]
    · simp only [List.count_cons, ih]


/-- With distinct keys, two bindings of one id agree. -/
lemma mem_assoc_data_unique {l : GraphState} (hn : (l.map Prod.fst).Nodup)
    {k : Nat} {a b : NodeData} (h1 : (k, a) ∈ l) (h2 : (k, b) ∈ l) : a = b := by
  have ha := mem_lookupNode hn h1
  have hb := mem_lookupNode hn h2
  rw [ha] at hb
  exact Option.some.inj hb

/-- The three mutations of `replace_child` as one per-entry transformation. -/
def replaceStep (p old new : Nat) (i : Nat) (d : NodeData) : NodeData :=
  let d1 := if i = p then { d with children := replaceFirst d.children old new } else d
  let d2 := if i = new then { d1 with parents := d1.parents ++ [p] } else d1
  if i = old then { d2 with parents := d2.parents.erase p } else d2

lemma replaceStep_children (p old new i : Nat) (d : NodeData) :
    (replaceStep p old new i d).children =
      if i = p then replaceFirst d.children old new else d.children := by
  simp only [replaceStep]
  split_ifs <;> rfl

lemma replaceStep_parents (p old new i : Nat) (d : NodeData) :
    (replaceStep p old new i d).parents =
      (if i = old
        then (if i = new then d.parents ++ [p] else d.parents).erase p
        else (if i = new then d.parents ++ [p] else d.parents)) := by
  simp only [replaceStep]
  split_ifs <;> rfl

lemma replaceStep_children_eq {p i : Nat} (old new : Nat) (d : NodeData) (h : i = p) :
    (replaceStep p old new i d).children = replaceFirst d.children old new := by
  rw [replaceStep_children, if_pos h]

lemma replaceStep_children_ne {p i : Nat} (old new : Nat) (d : NodeData) (h : ¬i = p) :
    (replaceStep p old new i d).children = d.children := by
  rw [replaceStep_children, if_neg h]

lemma replaceStep_parents_f {old new i : Nat} (p : Nat) (d : NodeData)
    (h2o : ¬i = old) (h2n : ¬i = new) :
    (replaceStep p old new i d).parents = d.parents := by
  rw [replaceStep_parents, if_neg h2o, if_neg h2n]

lemma replaceStep_parents_o {old new i : Nat} (p : Nat) (d : NodeData)
    (h2o : i = old) (h2n : ¬i = new) :
    (replaceStep p old new i d).parents = d.parents.erase p := by
  rw [replaceStep_parents, if_pos h2o, if_neg h2n]

lemma replaceStep_parents_n {old new i : Nat} (p : Nat) (d : NodeData)
    (h2o : ¬i = old) (h2n : i = new) :
    (replaceStep p old new i d).parents = d.parents ++ [p] := by
  rw [replaceStep_parents, if_neg h2o, if_pos h2n]

lemma replaceStep_parents_on {old new i : Nat} (p : Nat) (d : NodeData)
    (h2o : i = old) (h2n : i = new) :
    (replaceStep p old new i d).parents = (d.parents ++ [p]).erase p := by
  rw [replaceStep_parents, if_pos h2o, if_pos h2n]

lemma replace_child_ok_eq {g g' : GraphState} {p old new : Nat}
    (hrc : replace_child g p old new = .ok g') :
    ∃ d, lookupNode g p = some d ∧ old ∈ d.children ∧
      g' = g.map fun e => (e.1, replaceStep p old new e.1 e.2) := by
  rw [replace_child] at hrc
  split at hrc
  · cases hrc
  · rename_i d hp
    split at hrc
    · rename_i hmem
      injection hrc with hrc
      refine ⟨d, hp, hmem, ?_⟩
      rw [← hrc]
      rw [remove_parent, append_parent, updateNode, updateNode, updateNode,
        List.map_map, List.map_map]
      apply List.map_congr_left
      intro e he
      obtain ⟨i, dd⟩ := e
      simp only [Function.comp_apply, replaceStep]
      split_ifs <;> rfl
    · cases hrc

lemma replace_child_keys {g g' : GraphState} {p old new : Nat}
    (hrc : replace_child g p old new = .ok g') :
    g'.map Prod.fst = g.map Prod.fst := by
  obtain ⟨d, hp, hmem, hg⟩ := replace_child_ok_eq hrc
  subst hg
  rw [List.map_map]
  apply List.map_congr_left
  intro e he
  rfl

/-- `replace_child` preserves the count invariant. -/
lemma replace_child_consistent {g g' : GraphState} {p old new : Nat}
    (hnd : (g.map Prod.fst).Nodup) (hcc : consistent_count g)
    (hrc : replace_child g p old new = .ok g') : consistent_count g' := by
  obtain ⟨d, hp, hmem, hg⟩ := replace_child_ok_eq hrc
  subst hg
  intro e1 he1 e2 he2
  obtain ⟨⟨i1, d1⟩, hb1, rfl⟩ := List.mem_map.mp he1
  obtain ⟨⟨i2, d2⟩, hb2, rfl⟩ := List.mem_map.mp he2
  have hbase := hcc _ hb1 _ hb2
  simp only at hbase ⊢
  have hdmem : (p, d) ∈ g := lookupNode_mem hp
  by_cases h1p : i1 = p <;> by_cases h2o : i2 = old <;> by_cases h2n : i2 = new
  · -- i1 = p, i2 = old = new: replacing a child by itself, append and erase cancel
    subst h1p
    subst h2o
    subst h2n
    have hd1 : d1 = d := mem_assoc_data_unique hnd hb1 hdmem
    subst hd1
    rw [replaceStep_children_eq _ _ _ rfl, replaceStep_parents_on _ _ rfl rfl,
      replaceFirst_count_same, List.count_erase_self, List.count_append]
    simp
    omega
  · -- i1 = p, i2 = old ≠ new: one child slot lost, one parent entry erased
    subst h1p
    subst h2o
    have hd1 : d1 = d := mem_assoc_data_unique hnd hb1 hdmem
    subst hd1
    rw [replaceStep_children_eq _ _ _ rfl, replaceStep_parents_o _ _ rfl h2n,
      replaceFirst_count_old new hmem h2n, List.count_erase_self]
    omega
  · -- i1 = p, i2 = new ≠ old: one child slot gained, one parent entry appended
    subst h1p
    subst h2n
    have hd1 : d1 = d := mem_assoc_data_unique hnd hb1 hdmem
    subst hd1
    have hne : old ≠ i2 := fun h => h2o h.symm
    rw [replaceStep_children_eq _ _ _ rfl, replaceStep_parents_n _ _ h2o rfl,
      replaceFirst_count_new i2 hmem hne, List.count_append]
    simp
    omega
  · -- i1 = p, i2 untouched
    subst h1p
    have hd1 : d1 = d := mem_assoc_data_unique hnd hb1 hdmem
    subst hd1
    rw [replaceStep_children_eq _ _ _ rfl, replaceStep_parents_f _ _ h2o h2n,
      replaceFirst_count_other h2o h2n]
    exact hbase
  · -- i1 ≠ p, i2 = old = new
    subst h2o
    subst h2n
    rw [replaceStep_children_ne _ _ _ h1p, replaceStep_parents_on _ _ rfl rfl,
      List.count_erase_of_ne h1p, List.count_append]
    have h0 : List.count i1 [p] = 0 := by
      simp [List.count_eq_zero, h1p]
    omega
  · -- i1 ≠ p, i2 = old ≠ new
    subst h2o
    rw [replaceStep_children_ne _ _ _ h1p, replaceStep_parents_o _ _ rfl h2n,
      List.count_erase_of_ne h1p]
    exact hbase
  · -- i1 ≠ p, i2 = new ≠ old
    subst h2n
    rw [replaceStep_children_ne _ _ _ h1p, replaceStep_parents_n _ _ h2o rfl,
      List.count_append]
    have h0 : List.count i1 [p] = 0 := by
      simp [List.count_eq_zero, h1p]
    omega
  · -- both untouched
    rw [replaceStep_children_ne _ _ _ h1p, replaceStep_parents_f _ _ h2o h2n]
    exact hbase


/-- Registering a fresh parent on every child in turn extends each node's
parent list by one `nid` entry per occurrence of the node among the
children. -/
lemma reg_parents_map (todo : List Nat) (nid : Nat) :
    ∀ g : GraphState,
      todo.foldl (fun acc c => append_parent acc c nid) g =
        g.map fun e =>
          (e.1, { e.2 with parents := e.2.parents ++ List.replicate (todo.count e.1) nid }) := by
  induction todo with
  | nil =>
    intro g
    simp only [List.foldl_nil, List.count_nil, List.replicate_zero, List.append_nil]
    have hid : (fun (e : Nat × NodeData) =>
        (e.1, { e.2 with parents := e.2.parents })) = fun e => e := by
      funext e
      rfl
    rw [hid, List.map_id']
  | cons c cs ih =>
    intro g
    rw [List.foldl_cons, ih, append_parent, updateNode, List.map_map]
    apply List.map_congr_left
    intro e he
    obtain ⟨i, d⟩ := e
    simp only [Function.comp_apply]
    by_cases hic : i = c
    · subst hic
      simp [List.count_cons_self, List.replicate_succ, List.append_assoc]
    · simp [hic, List.count_cons_of_ne hic]

/-- `Node.__init__` establishes the count invariant when the new id is fresh:
not a key of the graph, not among its own children, and referenced nowhere. -/
lemma mk_node_consistent {g : GraphState} {nid : Nat} (kind : NodeKind)
    (dtype : DataType) (shape : Shape) (dip : Bool) {cs : List Nat}
    (hcc : consistent_count g)
    (hf1 : nid ∉ g.map Prod.fst) (hf2 : nid ∉ cs)
    (hf3 : ∀ e ∈ g, nid ∉ (e : Nat × NodeData).2.parents ∧ nid ∉ e.2.children) :
    consistent_count (mk_node g nid kind dtype shape dip cs) := by
  rw [mk_node, reg_parents_map]
  intro e1 he1 e2 he2
  rw [List.map_cons] at he1 he2
  simp only at he1 he2
  rcases List.mem_cons.mp he1 with he1 | he1 <;> rcases List.mem_cons.mp he2 with he2 | he2
  · -- both are the fresh node
    subst he1
    rw [he2]
    have h2 : List.count nid cs = 0 := List.count_eq_zero.mpr hf2
    simp [h2]
  · -- e1 is the fresh node, e2 an old node: children count vs appended parents
    subst he1
    obtain ⟨⟨i2, d2⟩, hb2, rfl⟩ := List.mem_map.mp he2
    simp only
    rw [List.count_append]
    have h2 : List.count nid d2.parents = 0 := List.count_eq_zero.mpr (hf3 _ hb2).1
    have hrep : List.count nid (List.replicate (List.count i2 cs) nid) =
        List.count i2 cs := by
      simp
    rw [h2, hrep]
    omega
  · -- e1 an old node, e2 the fresh node: no old node mentions nid
    obtain ⟨⟨i1, d1⟩, hb1, rfl⟩ := List.mem_map.mp he1
    rw [he2]
    have h2 : List.count nid cs = 0 := List.count_eq_zero.mpr hf2
    simp only [h2, List.replicate_zero, List.append_nil, List.count_nil]
    exact List.count_eq_zero.mpr (hf3 _ hb1).2
  · -- two old nodes: the replicated parent entries are all nid
    obtain ⟨⟨i1, d1⟩, hb1, rfl⟩ := List.mem_map.mp he1
    obtain ⟨⟨i2, d2⟩, hb2, rfl⟩ := List.mem_map.mp he2
    simp only
    rw [List.count_append]
    have hne : i1 ≠ nid := by
      intro h
      exact hf1 (h ▸ List.mem_map_of_mem Prod.fst hb1)
    have hrep : List.count i1 (List.replicate (List.count i2 cs) nid) = 0 := by
      simp [List.count_eq_zero, List.mem_replicate, hne]
    have hbase := hcc _ hb1 _ hb2
    simp only at hbase
    rw [hrep, hbase]
    omega


lemma foldlM_replace_consistent (cache : List Nat) :
    ∀ {g g' : GraphState} {old new : Nat},
      (g.map Prod.fst).Nodup → consistent_count g →
      cache.foldlM (fun acc p => replace_child acc p old new) g = .ok g' →
      consistent_count g' ∧ g'.map Prod.fst = g.map Prod.fst := by
  induction cache with
  | nil =>
    intro g g' old new hnd hcc h
    injection h with h
    subst h
    exact ⟨hcc, rfl⟩
  | cons q qs ih =>
    intro g g' old new hnd hcc h
    rw [List.foldlM_cons] at h
    cases hq : replace_child g q old new with
    | error e =>
      rw [hq] at h
      cases h
    | ok mid =>
      rw [hq] at h
      have hmidnd : (mid.map Prod.fst).Nodup := by
        rw [replace_child_keys hq]
        exact hnd
      obtain ⟨h1, h2⟩ := ih hmidnd (replace_child_consistent hnd hcc hq) h
      exact ⟨h1, h2.trans (replace_child_keys hq)⟩

/-- `replace_in_graph` preserves the count invariant. -/
lemma replace_in_graph_consistent {g g' : GraphState} {old new : Nat}
    (hnd : (g.map Prod.fst).Nodup) (hcc : consistent_count g)
    (h : replace_in_graph g old new = .ok g') : consistent_count g' := by
  rw [replace_in_graph] at h
  split at h
  · cases h
  · exact (foldlM_replace_consistent _ hnd hcc h).1

/-- The count invariant yields the claim's reading: every child's parent
list mentions the parent. -/
lemma back_pointer_of_consistent {g : GraphState} (hcc : consistent_count g)
    {p c : Nat} {dp dc : NodeData} (hp : (p, dp) ∈ g) (hc : (c, dc) ∈ g)
    (hch : c ∈ dp.children) : p ∈ dc.parents := by
  have hct := hcc _ hp _ hc
  simp only at hct
  have h1 : 1 ≤ List.count c dp.children := List.one_le_count_iff.mpr hch
  rw [hct] at h1
  exact List.one_le_count_iff.mp h1


/-! ### `BaseArrayNode` (src/xlnumba/nodes/array.py) -/

/-- The `BaseArrayNode.data_type` property: fold the children's data types,
skipping Blanks, raising `UnsupportedException` on a mix or when every
element is Blank. -/
def arr_data_type (g : GraphState) : List Nat → DataType → Except PyError DataType
  | [], acc =>
    if acc = .Blank then
      .error (.unsupported "All elements in array are blank.  Cannot deduce data type")
    else .ok acc
  | c :: cs, acc =>
    match lookupNode g c with
    | none => .error .assertionError
    | some dc =>
      if acc = .Blank then arr_data_type g cs dc.dtype
      else if dc.dtype = .Blank then arr_data_type g cs acc
      else if acc = dc.dtype then arr_data_type g cs acc
      else .error (.unsupported "Array contains unsupported mixed types")

/-- `BaseArrayNode.__init__`: run `Node.__init__` (which registers the array
as a parent of every child, Blank children included), then build one default
`LiteralNode` (`''` for string arrays, `0` otherwise) and overwrite every
Blank child slot with it — with no `append_parent` on the default node and
no `remove_parent` on the displaced Blank children.  (`data_type` reads only
the children's types, so computing it before or after the parent
registration is equivalent.) -/
def mk_base_array_node (g : GraphState) (nid did : Nat) (shape : Shape)
    (cs : List Nat) : Except PyError GraphState :=
  (arr_data_type g cs .Blank).map fun dt =>
    let g1 := mk_node g nid .array dt shape false cs
    let defaultDtype := if dt = .String then DataType.String else DataType.Number
    let g2 := (did, ⟨.literal, [], [], defaultDtype, SCALAR_SHAPE, false, false⟩) :: g1
    updateNode g2 nid fun d =>
      { d with children := d.children.map fun c =>
          match lookupNode g2 c with
          | some dc => if dc.dtype = .Blank then did else c
          | none => c }

/-- A two-cell array (one Number literal, one Blank) wrapped as node 2 with
default node 3, reachable from the output root 4. -/
def blankArrayGraph : Except PyError GraphState :=
  (mk_base_array_node
    [(0, ⟨.literal, [], [], .Number, SCALAR_SHAPE, false, false⟩),
     (1, ⟨.literal, [], [], .Blank, SCALAR_SHAPE, false, false⟩)]
    2 3 ⟨1, 2⟩ [0, 1]).map fun g => mk_node g 4 .output .Number ⟨1, 2⟩ false [2]

/-- C9 (counterexample): constructing an `ExcelArrayNode` over a range with a
Blank cell substitutes the shared default literal (node 3) into the array's
child list, but the default node's parent list stays empty — so the node 2
reachable from the output root 4 has the child 3 whose parent list does not
mention 2, violating the claimed invariant right after construction. -/
theorem c9_array_blank_counterexample :
    (blankArrayGraph.toOption.bind fun g => (lookupNode g 4).map NodeData.children)
        = some [2] ∧
    (blankArrayGraph.toOption.bind fun g => (lookupNode g 2).map NodeData.children)
        = some [0, 3] ∧
    (blankArrayGraph.toOption.bind fun g => (lookupNode g 3).map NodeData.parents)
        = some [] := by
  exact ⟨rfl, rfl, rfl⟩

/-- C9 (amended): the parent/child count invariant — child-slot counts equal
parent-list counts for every pair of nodes — is established by plain
`Node.__init__` on a fresh id, is preserved by `replace_child` and by
`replace_in_graph`, and implies the claimed membership form: every child of
a node has that node in its parent list.  (The `BaseArrayNode` constructor's
Blank substitution violates it: see the counterexample.) -/
theorem c9_back_pointer_invariant :
    (∀ (g : GraphState) (nid : Nat) (kind : NodeKind) (dtype : DataType)
        (shape : Shape) (dip : Bool) (cs : List Nat),
      consistent_count g → nid ∉ g.map Prod.fst → nid ∉ cs →
      (∀ e ∈ g, nid ∉ (e : Nat × NodeData).2.parents ∧ nid ∉ e.2.children) →
      consistent_count (mk_node g nid kind dtype shape dip cs)) ∧
    (∀ (g g' : GraphState) (p old new : Nat),
      (g.map Prod.fst).Nodup → consistent_count g →
      replace_child g p old new = .ok g' → consistent_count g') ∧
    (∀ (g g' : GraphState) (old new : Nat),
      (g.map Prod.fst).Nodup → consistent_count g →
      replace_in_graph g old new = .ok g' → consistent_count g') ∧
    (∀ g : GraphState, consistent_count g →
      ∀ (p : Nat) (dp : NodeData) (c : Nat) (dc : NodeData),
        (p, dp) ∈ g → (c, dc) ∈ g → c ∈ dp.children → p ∈ dc.parents) :=
  ⟨fun _ _ kind dtype shape dip _ hcc h1 h2 h3 =>
      mk_node_consistent kind dtype shape dip hcc h1 h2 h3,
    fun _ _ _ _ _ hnd hcc h => replace_child_consistent hnd hcc h,
    fun _ _ _ _ hnd hcc h => replace_in_graph_consistent hnd hcc h,
    fun _ hcc _ _ _ _ hp hc hch => back_pointer_of_consistent hcc hp hc hch⟩

/-- Witness for C9: `replace_child` applied in a concrete three-node graph
keeps the count invariant. -/
theorem c9_back_pointer_invariant_witness :
    consistent_count
      [(10, ⟨.other, [12], [], .Number, SCALAR_SHAPE, false, false⟩),
       (11, ⟨.literal, [], [], .Number, SCALAR_SHAPE, false, false⟩),
       (12, ⟨.literal, [], [10], .Number, SCALAR_SHAPE, false, false⟩)] :=
  c9_back_pointer_invariant.2.1
    [(10, ⟨.other, [11], [], .Number, SCALAR_SHAPE, false, false⟩),
     (11, ⟨.literal, [], [10], .Number, SCALAR_SHAPE, false, false⟩),
     (12, ⟨.literal, [], [], .Number, SCALAR_SHAPE, false, false⟩)]
    _ 10 11 12 (by decide) (by decide) rfl


/-! ## Constant folding (src/pyxloptimizer/optimizations/collapse_literals.py)

The static evaluation (`generate_ast_tree` + `exec`) is an external
collaborator: its numeric result is irrelevant to the claim, so the fresh
`LiteralNode` it produces is modeled as a new literal entry carrying the
folded node's data type and shape.  `RunErr.fuel` marks exhaustion of the
model's recursion fuel (not a Python behaviour); `RunErr.py` wraps the
Python exceptions of the graph primitives. -/

inductive RunErr
  | py (e : PyError)
  | fuel
deriving DecidableEq, Repr

structure CLState where
  g : GraphState
  visited : List Nat
  nextId : Nat
  folded : List Nat
deriving DecidableEq, Repr

/-- `collapse_literals._exec_recursive`: return visited, `LiteralNode` and
childless nodes untouched; otherwise mark visited, recurse into every child
recording whether each recursion returned a `LiteralNode`, and if all did,
replace the node in the graph by a fresh literal (`replace_self`) and return
that literal.  The ghost log `folded` records every replaced node. -/
def cl_exec : Nat → Nat → CLState → Except RunErr (CLState × Nat)
  | 0, _, _ => .error .fuel
  | fuel + 1, n, st =>
    match lookupNode st.g n with
    | none => .ok (st, n)
    | some d =>
      if n ∈ st.visited ∨ d.kind = .literal ∨ d.children = [] then .ok (st, n)
      else
        (d.children.foldlM
            (fun (acc : CLState × Bool) c =>
              (cl_exec fuel c acc.1).map fun out =>
                (out.1,
                  acc.2 &&
                    (match lookupNode out.1.g out.2 with
                     | some dr => dr.kind == NodeKind.literal
                     | none => false)))
            ({ st with visited := n :: st.visited }, true)).bind
          fun st2 =>
            if st2.2 then
              match lookupNode st2.1.g n with
              | none => .ok (st2.1, n)
              | some d2 =>
                match replace_in_graph
                    ((st2.1.nextId, ⟨.literal, [], [], d2.dtype, d2.shape, false, false⟩)
                      :: st2.1.g) n st2.1.nextId with
                | .error e => .error (.py e)
                | .ok g2 =>
                  .ok ({ g := g2, visited := st2.1.visited, nextId := st2.1.nextId + 1,
                         folded := n :: st2.1.folded }, st2.1.nextId)
            else .ok (st2.1, n)

/-- `collapse_literals`: for every output root, recurse on each child of the
root (output nodes themselves are never collapsed). -/
def collapse_literals_run (fuel : Nat) (roots : List Nat) (st : CLState) :
    Except RunErr CLState :=
  roots.foldlM
    (fun acc root =>
      match lookupNode acc.g root with
      | none => .ok acc
      | some dr =>
        dr.children.foldlM (fun acc2 c => (cl_exec fuel c acc2).map (·.1)) acc)
    st

/-! ### Facts about the graph primitives used by the pass -/

lemma lookupNode_map_entry (g : GraphState) (F : Nat → NodeData → NodeData) (x : Nat) :
    lookupNode (g.map fun e => (e.1, F e.1 e.2)) x = (lookupNode g x).map (F x) := by
  induction g with
  | nil => rfl
  | cons e es ih =>
    obtain ⟨a, d⟩ := e
    by_cases h : a = x <;> simp [lookupNode, h, ih]

lemma replaceFirst_length (l : List Nat) (old new : Nat) :
    (replaceFirst l old new).length = l.length := by
  induction l with
  | nil => rfl
  | cons x xs ih =>
    rw [replaceFirst]
    split <;> simp [ih]

lemma replaceStep_kind (p old new i : Nat) (d : NodeData) :
    (replaceStep p old new i d).kind = d.kind := by
  simp only [replaceStep]
  split_ifs <;> rfl

lemma replaceStep_children_length (p old new i : Nat) (d : NodeData) :
    (replaceStep p old new i d).children.length = d.children.length := by
  rw [replaceStep_children]
  split
  · exact replaceFirst_length _ _ _
  · rfl

lemma replaceStep_id {p old new i : Nat} (d : NodeData)
    (h1 : ¬i = p) (h2 : ¬i = old) (h3 : ¬i = new) :
    replaceStep p old new i d = d := by
  simp [replaceStep, h1, h2, h3]

lemma rc_lookup {g g' : GraphState} {p old new : Nat}
    (hrc : replace_child g p old new = .ok g') (x : Nat) :
    lookupNode g' x = (lookupNode g x).map (replaceStep p old new x) := by
  obtain ⟨d, hp, hmem, hg⟩ := replace_child_ok_eq hrc
  subst hg
  exact lookupNode_map_entry g _ x

/-- Along a chain of `replace_child` calls every node keeps its id, kind and
child-count. -/
lemma foldlM_rc_facts (cache : List Nat) :
    ∀ {g g' : GraphState} {old new : Nat},
      cache.foldlM (fun acc p => replace_child acc p old new) g = .ok g' →
      ∀ x di, lookupNode g x = some di →
        ∃ di', lookupNode g' x = some di' ∧ di'.kind = di.kind ∧
          di'.children.length = di.children.length := by
  induction cache with
  | nil =>
    intro g g' old new h x di hx
    injection h with h
    subst h
    exact ⟨di, hx, rfl, rfl⟩
  | cons q qs ih =>
    intro g g' old new h x di hx
    rw [List.foldlM_cons] at h
    cases hq : replace_child g q old new with
    | error e =>
      rw [hq] at h
      cases h
    | ok mid =>
      rw [hq] at h
      have hmid : lookupNode mid x = some (replaceStep q old new x di) := by
        rw [rc_lookup hq x, hx]
        rfl
      obtain ⟨di', h1, h2, h3⟩ := ih h _ _ hmid
      exact ⟨di', h1, h2.trans (replaceStep_kind ..), h3.trans (replaceStep_children_length ..)⟩

/-- A childless node other than the replacement target is untouched by a
chain of `replace_child` calls replacing a node that has children. -/
lemma foldlM_rc_childless (cache : List Nat) :
    ∀ {g g' : GraphState} {old new : Nat},
      (∃ dold, lookupNode g old = some dold ∧ dold.children ≠ []) →
      cache.foldlM (fun acc p => replace_child acc p old new) g = .ok g' →
      ∀ x dx, ¬x = new → lookupNode g x = some dx → dx.children = [] →
        lookupNode g' x = some dx := by
  induction cache with
  | nil =>
    intro g g' old new hold h x dx hxn hx hch
    injection h with h
    subst h
    exact hx
  | cons q qs ih =>
    intro g g' old new hold h x dx hxn hx hch
    obtain ⟨dold, holdl, holdc⟩ := hold
    rw [List.foldlM_cons] at h
    cases hq : replace_child g q old new with
    | error e =>
      rw [hq] at h
      cases h
    | ok mid =>
      rw [hq] at h
      obtain ⟨dq, hdq, hdqm, hgm⟩ := replace_child_ok_eq hq
      have hxq : ¬x = q := by
        intro he
        rw [he, hdq] at hx
        injection hx with hx
        rw [hx] at hdqm
        rw [hch] at hdqm
        cases hdqm
      have hxo : ¬x = old := by
        intro he
        rw [he, holdl] at hx
        injection hx with hx
        exact holdc (hx.symm ▸ hch)
      have hmidx : lookupNode mid x = some dx := by
        rw [rc_lookup hq x, hx]
        simp [replaceStep_id dx hxq hxo hxn]
      have hmidold : ∃ dold', lookupNode mid old = some dold' ∧ dold'.children ≠ [] := by
        refine ⟨replaceStep q old new old dold, ?_, ?_⟩
        · rw [rc_lookup hq old, holdl]
          rfl
        · intro hnil
          have := replaceStep_children_length q old new old dold
          rw [hnil] at this
          simp only [List.length_nil] at this
          exact holdc (List.length_eq_zero.mp this.symm)
      exact ih hmidold h x dx hxn hmidx hch


/-- Well-formedness the pass maintains: every id is below the fresh-id
counter, and literal nodes are childless (as `LiteralNode.__init__` builds
them). -/
def CLGood (st : CLState) : Prop :=
  (∀ e ∈ st.g, (e : Nat × NodeData).1 < st.nextId) ∧
  (∀ e ∈ st.g, (e : Nat × NodeData).2.kind = .literal → e.2.children = [])

instance (st : CLState) : Decidable (CLGood st) := by
  unfold CLGood
  exact instDecidableAnd

/-- What one step of the pass guarantees: well-formedness persists, ids only
grow, every node survives with its kind and child-count, and a childless
node's entry — and its absence from the folded log — are untouched. -/
def CLPres (st st' : CLState) : Prop :=
  CLGood st' ∧ st.nextId ≤ st'.nextId ∧
  (∀ i di, lookupNode st.g i = some di →
    ∃ di', lookupNode st'.g i = some di' ∧ di'.kind = di.kind ∧
      di'.children.length = di.children.length) ∧
  (∀ i di, lookupNode st.g i = some di → di.children = [] →
    lookupNode st'.g i = some di ∧ (i ∉ st.folded → i ∉ st'.folded))

lemma CLPres_refl {st : CLState} (h : CLGood st) : CLPres st st :=
  ⟨h, le_refl _, fun _ di hx => ⟨di, hx, rfl, rfl⟩, fun _ _ hx _ => ⟨hx, id⟩⟩

lemma CLPres_trans {a b c : CLState} (h1 : CLPres a b) (h2 : CLPres b c) :
    CLPres a c := by
  obtain ⟨g1, n1, f1, c1⟩ := h1
  obtain ⟨g2, n2, f2, c2⟩ := h2
  refine ⟨g2, n1.trans n2, ?_, ?_⟩
  · intro i di hx
    obtain ⟨d1, hl1, hk1, hc1⟩ := f1 i di hx
    obtain ⟨d2, hl2, hk2, hc2⟩ := f2 i d1 hl1
    exact ⟨d2, hl2, hk2.trans hk1, hc2.trans hc1⟩
  · intro i di hx hch
    obtain ⟨hl1, hf1⟩ := c1 i di hx hch
    obtain ⟨hl2, hf2⟩ := c2 i di hl1 hch
    exact ⟨hl2, fun h => hf2 (hf1 h)⟩

lemma foldlM_rc_entry_sim (cache : List Nat) :
    ∀ {g g' : GraphState} {old new : Nat},
      cache.foldlM (fun acc p => replace_child acc p old new) g = .ok g' →
      ∀ e' ∈ g', ∃ e ∈ g, (e' : Nat × NodeData).1 = (e : Nat × NodeData).1 ∧
        e'.2.kind = e.2.kind ∧ e'.2.children.length = e.2.children.length := by
  induction cache with
  | nil =>
    intro g g' old new h e' he'
    injection h with h
    subst h
    exact ⟨e', he', rfl, rfl, rfl⟩
  | cons q qs ih =>
    intro g g' old new h e' he'
    rw [List.foldlM_cons] at h
    cases hq : replace_child g q old new with
    | error e =>
      rw [hq] at h
      cases h
    | ok mid =>
      rw [hq] at h
      obtain ⟨em, hem, h1, h2, h3⟩ := ih h e' he'
      obtain ⟨dq, hdq, hdqm, hgm⟩ := replace_child_ok_eq hq
      subst hgm
      obtain ⟨⟨i0, d0⟩, hb0, rfl⟩ := List.mem_map.mp hem
      exact ⟨(i0, d0), hb0, h1, h2.trans (replaceStep_kind ..),
        h3.trans (replaceStep_children_length ..)⟩

/-- The replacement step of the pass, from the state after the child
recursion to the state after `replace_self`. -/
lemma cl_fold_step_pres {st2 : CLState} {n : Nat} {d2 : NodeData} {g2 : GraphState}
    (hgood : CLGood st2)
    (hn : lookupNode st2.g n = some d2) (hch : d2.children ≠ [])
    (hrig : replace_in_graph
        ((st2.nextId, ⟨.literal, [], [], d2.dtype, d2.shape, false, false⟩) :: st2.g)
        n st2.nextId = .ok g2) :
    CLPres st2 { g := g2, visited := st2.visited, nextId := st2.nextId + 1,
                 folded := n :: st2.folded } := by
  show CLPres _ _
  have hnlt : n < st2.nextId := hgood.1 _ (lookupNode_mem hn)
  have hlookg1 : ∀ i di, lookupNode st2.g i = some di → ¬i = st2.nextId →
      lookupNode ((st2.nextId, ⟨.literal, [], [], d2.dtype, d2.shape, false, false⟩)
        :: st2.g) i = some di := by
    intro i di hdi hne
    rw [lookupNode]
    split
    · rename_i he
      exact absurd he.symm hne
    · exact hdi
  have hlt : ∀ i di, lookupNode st2.g i = some di → i < st2.nextId :=
    fun i di hdi => hgood.1 _ (lookupNode_mem hdi)
  rw [replace_in_graph] at hrig
  split at hrig
  · cases hrig
  · rename_i dold hdold
    rw [hlookg1 n d2 hn (by omega)] at hdold
    injection hdold with hdold
    subst hdold
    refine ⟨⟨?_, ?_⟩, Nat.le_succ _, ?_, ?_⟩
    · -- ids stay below the bumped counter
      intro e' he'
      show (e' : Nat × NodeData).1 < st2.nextId + 1
      obtain ⟨e, he, h1, h2, h3⟩ := foldlM_rc_entry_sim _ hrig e' he'
      rcases List.mem_cons.mp he with he | he
      · rw [h1, he]
        omega
      · have := hgood.1 _ he
        rw [h1]
        omega
    · -- literal nodes stay childless
      intro e' he' hk
      obtain ⟨e, he, h1, h2, h3⟩ := foldlM_rc_entry_sim _ hrig e' he'
      rcases List.mem_cons.mp he with he | he
      · rw [he] at h3
        simp only [List.length_nil] at h3
        exact List.length_eq_zero.mp h3
      · have := hgood.2 _ he (h2 ▸ hk)
        rw [this] at h3
        simp only [List.length_nil] at h3
        exact List.length_eq_zero.mp h3
    · -- every node survives with kind and child-count
      intro i di hdi
      have := foldlM_rc_facts _ hrig i di
        (hlookg1 i di hdi (by have := hlt i di hdi; omega))
      simpa using this
    · -- childless nodes are untouched and stay unfolded
      intro i di hdi hchi
      have hne : ¬i = st2.nextId := by
        have := hlt i di hdi
        omega
      have hl := foldlM_rc_childless _
        ⟨d2, hlookg1 n d2 hn (by omega), hch⟩ hrig i di hne
        (hlookg1 i di hdi hne) hchi
      refine ⟨hl, ?_⟩
      intro hnf hmem
      rcases List.mem_cons.mp hmem with hmem | hmem
      · rw [hmem] at hdi
        rw [hdi] at hn
        injection hn with hn
        rw [← hn] at hch
        exact hch hchi
      · exact hnf hmem

/-- The recursion of `_exec_recursive` satisfies `CLPres`. -/
lemma cl_exec_pres : ∀ (fuel n : Nat) (st : CLState) (out : CLState × Nat),
    CLGood st → cl_exec fuel n st = .ok out → CLPres st out.1 := by
  intro fuel
  induction fuel with
  | zero =>
    intro n st out hg h
    cases h
  | succ fuel ih =>
    intro n st out hg h
    rw [cl_exec] at h
    split at h
    · injection h with h
      subst h
      exact CLPres_refl hg
    · rename_i d hd
      split at h
      · injection h with h
        subst h
        exact CLPres_refl hg
      · rename_i hguard
        have hfold : ∀ (cs : List Nat) (a o : CLState × Bool),
            CLGood a.1 →
            cs.foldlM
              (fun (acc : CLState × Bool) c =>
                (cl_exec fuel c acc.1).map fun out2 =>
                  (out2.1,
                    acc.2 &&
                      (match lookupNode out2.1.g out2.2 with
                       | some dr => dr.kind == NodeKind.literal
                       | none => false))) a = .ok o →
            CLPres a.1 o.1 := by
          intro cs
          induction cs with
          | nil =>
            intro a o ha hfo
            injection hfo with hfo
            subst hfo
            exact CLPres_refl ha
          | cons c cs ihc =>
            intro a o ha hfo
            rw [List.foldlM_cons] at hfo
            cases hx : cl_exec fuel c a.1 with
            | error e =>
              rw [hx] at hfo
              cases hfo
            | ok o2 =>
              rw [hx] at hfo
              have h1 := ih c a.1 o2 ha hx
              exact CLPres_trans h1 (ihc _ o h1.1 hfo)
        cases hfv : (d.children.foldlM
            (fun (acc : CLState × Bool) c =>
              (cl_exec fuel c acc.1).map fun out2 =>
                (out2.1,
                  acc.2 &&
                    (match lookupNode out2.1.g out2.2 with
                     | some dr => dr.kind == NodeKind.literal
                     | none => false)))
            ({ st with visited := n :: st.visited }, true)) with
        | error e =>
          rw [hfv] at h
          cases h
        | ok st2 =>
          rw [hfv] at h
          simp only [Except.bind] at h
          have hpres := hfold _ _ _ hg hfv
          split at h
          · split at h
            · injection h with h
              subst h
              exact hpres
            · rename_i d2 hn2
              split at h
              · cases h
              · rename_i g2 hrig
                injection h with h
                subst h
                simp only [not_or] at hguard
                obtain ⟨hdi', hl', hk', hc'⟩ := hpres.2.2.1 n d hd
                rw [hn2] at hl'
                injection hl' with hl'
                subst hl'
                have hch2 : d2.children ≠ [] := by
                  intro hnil
                  rw [hnil] at hc'
                  simp only [List.length_nil] at hc'
                  exact hguard.2.2 (List.length_eq_zero.mp hc'.symm)
                exact CLPres_trans hpres (cl_fold_step_pres hpres.1 hn2 hch2 hrig)
          · injection h with h
            subst h
            exact hpres

lemma except_bind_ok {ε α β : Type} {x : Except ε α} {f : α → Except ε β} {b : β}
    (h : x >>= f = .ok b) : ∃ a, x = .ok a ∧ f a = .ok b := by
  cases x with
  | error e => cases h
  | ok a => exact ⟨a, rfl, h⟩

/-- The whole pass satisfies `CLPres`. -/
lemma collapse_run_pres (fuel : Nat) (roots : List Nat) (st st' : CLState)
    (hg : CLGood st) (h : collapse_literals_run fuel roots st = .ok st') :
    CLPres st st' := by
  have hchild : ∀ (cs : List Nat) (a b : CLState), CLGood a →
      cs.foldlM (fun acc2 c => (cl_exec fuel c acc2).map (·.1)) a = .ok b →
      CLPres a b := by
    intro cs
    induction cs with
    | nil =>
      intro a b ha hfo
      injection hfo with hfo
      subst hfo
      exact CLPres_refl ha
    | cons c cs ihc =>
      intro a b ha hfo
      rw [List.foldlM_cons] at hfo
      cases hx : cl_exec fuel c a with
      | error e =>
        rw [hx] at hfo
        cases hfo
      | ok o2 =>
        rw [hx] at hfo
        have h1 := cl_exec_pres fuel c a o2 ha hx
        exact CLPres_trans h1 (ihc _ b h1.1 hfo)
  have hroots : ∀ (rl : List Nat) (a b : CLState), CLGood a →
      rl.foldlM
        (fun (acc : CLState) root =>
          match lookupNode acc.g root with
          | none => (Except.ok acc : Except RunErr CLState)
          | some dr =>
            dr.children.foldlM
              (fun acc2 c => (cl_exec fuel c acc2).map fun (o : CLState × Nat) => o.1) acc) a
        = .ok b →
      CLPres a b := by
    intro rl
    induction rl with
    | nil =>
      intro a b ha hfo
      injection hfo with hfo
      subst hfo
      exact CLPres_refl ha
    | cons r rs ihr =>
      intro a b ha hfo
      rw [List.foldlM_cons] at hfo
      cases hr : lookupNode a.g r with
      | none =>
        rw [hr] at hfo
        exact ihr a b ha hfo
      | some dr =>
        rw [hr] at hfo
        obtain ⟨mid, hmid, hrest⟩ := except_bind_ok hfo
        have h1 := hchild _ _ _ ha hmid
        exact CLPres_trans h1 (ihr mid b h1.1 hrest)
  rw [collapse_literals_run] at h
  exact hroots roots st st' hg h


/-- C10 (amended): the constant-folding pass never folds a childless node or
a Literal node.  On any successful run over a well-formed graph, every node
that is a Literal or has no children keeps its exact entry and never enters
the folded log — in particular every Input node and every childless
random-source node (`RandomValueNode`) survives the pass untouched.  (A
random-source node WITH children — `RandBetweenNode` over literal bounds —
does get folded: see the counterexample.) -/
theorem c10_collapse_skips_childless (fuel : Nat) (roots : List Nat)
    (st st' : CLState) (hgood : CLGood st)
    (hrun : collapse_literals_run fuel roots st = .ok st')
    (i : Nat) (di : NodeData) (hlook : lookupNode st.g i = some di)
    (hcl : di.kind = .literal ∨ di.children = []) (hnf : i ∉ st.folded) :
    lookupNode st'.g i = some di ∧ i ∉ st'.folded := by
  have hch : di.children = [] := by
    rcases hcl with hcl | hcl
    · exact hgood.2 _ (lookupNode_mem hlook) hcl
    · exact hcl
  have hpres := collapse_run_pres fuel roots st st' hgood hrun
  obtain ⟨hl, hf⟩ := hpres.2.2.2 i di hlook hch
  exact ⟨hl, hf hnf⟩

/-- An output root over a `RandBetweenNode` whose two bounds are literals. -/
def randBetweenGraph : CLState :=
  { g := [(0, ⟨.output, [1], [], .Number, SCALAR_SHAPE, false, false⟩),
          (1, ⟨.randBetween, [2, 3], [0], .Number, SCALAR_SHAPE, false, false⟩),
          (2, ⟨.literal, [], [1], .Number, SCALAR_SHAPE, false, false⟩),
          (3, ⟨.literal, [], [1], .Number, SCALAR_SHAPE, false, false⟩)],
    visited := [], nextId := 10, folded := [] }

/-- C10 (counterexample): the claim promises every random-source node
survives the pass unfolded, but `RANDBETWEEN(1, 2)` — a random-source node
whose children are two literals — is folded into the fresh literal 10: the
pass replaces it in the output root's child list and logs it as folded, so
the compiled sheet's randomness is frozen at compile time. -/
theorem c10_randbetween_folded_counterexample :
    ((collapse_literals_run 10 [0] randBetweenGraph).toOption.map fun st =>
        (st.folded, (lookupNode st.g 0).map NodeData.children)) =
      some ([1], some [10]) := by
  rfl

/-- Witness for C10: in the same run, the childless literal node 2 keeps its
entry and stays out of the folded log. -/
theorem c10_collapse_skips_childless_witness :
    lookupNode
      [(10, ⟨.literal, [], [0], .Number, SCALAR_SHAPE, false, false⟩),
       (0, ⟨.output, [10], [], .Number, SCALAR_SHAPE, false, false⟩),
       (1, ⟨.randBetween, [2, 3], [], .Number, SCALAR_SHAPE, false, false⟩),
       (2, ⟨.literal, [], [1], .Number, SCALAR_SHAPE, false, false⟩),
       (3, ⟨.literal, [], [1], .Number, SCALAR_SHAPE, false, false⟩)] 2 =
      some ⟨.literal, [], [1], .Number, SCALAR_SHAPE, false, false⟩ ∧
    2 ∉ [1] :=
  c10_collapse_skips_childless 10 [0] randBetweenGraph
    { g := [(10, ⟨.literal, [], [0], .Number, SCALAR_SHAPE, false, false⟩),
            (0, ⟨.output, [10], [], .Number, SCALAR_SHAPE, false, false⟩),
            (1, ⟨.randBetween, [2, 3], [], .Number, SCALAR_SHAPE, false, false⟩),
            (2, ⟨.literal, [], [1], .Number, SCALAR_SHAPE, false, false⟩),
            (3, ⟨.literal, [], [1], .Number, SCALAR_SHAPE, false, false⟩)],
      visited := [1], nextId := 11, folded := [1] }
    (by decide) rfl 2 ⟨.literal, [], [1], .Number, SCALAR_SHAPE, false, false⟩
    rfl (Or.inl rfl) (by decide)


/-! ## In-place optimization (src/pyxloptimizer/optimizations/array_inplace.py,
src/pyxloptimizer/nodes/function.py)

`FunctionOpNode.shape` and `.data_type` are Function Registry computations
over the children; the embedding carries their values as stored fields, and
the registry's `in_place_supported()` verdict as `details_in_place`. -/

/-- `FunctionOpNode.in_place_supported`: exactly one child, non-scalar
result shape, the child's data type equals the node's, the child has exactly
one parent, and the registry declares in-place support — in the source's
order. -/
def in_place_supported (g : GraphState) (d : NodeData) : Bool :=
  match d.children with
  | [c] =>
    match lookupNode g c with
    | some cd =>
      !d.shape.is_scalar && (cd.dtype == d.dtype) && (cd.parents.length == 1)
        && d.details_in_place
    | none => false
  | _ => false

/-- The tail of `array_inplace._exec_recursive`: after the children are
visited, mark the node when it is a supported `FunctionOpNode`. -/
def ai_mark (n : Nat) (s2 : GraphState × List Nat) : GraphState × List Nat :=
  match lookupNode s2.1 n with
  | some d2 =>
    if d2.kind = .functionOp ∧ in_place_supported s2.1 d2 = true then
      (updateNode s2.1 n fun dd => { dd with in_place := true }, s2.2)
    else s2
  | none => s2

/-- `array_inplace._exec_recursive`: depth-first search marking every
supported `FunctionOpNode` in place after visiting its children. -/
def ai_exec : Nat → Nat → GraphState × List Nat → GraphState × List Nat
  | 0, _, s => s
  | fuel + 1, n, (g, visited) =>
    if n ∈ visited then (g, visited)
    else
      match lookupNode g n with
      | none => (g, n :: visited)
      | some d =>
        ai_mark n (d.children.foldl (fun acc c => ai_exec fuel c acc) (g, n :: visited))

/-- `array_inplace`: run the search from every output root with one shared
visited set. -/
def array_inplace_run (fuel : Nat) (roots : List Nat) (g : GraphState) :
    GraphState × List Nat :=
  roots.foldl (fun acc r => if r ∈ acc.2 then acc else ai_exec fuel r acc) (g, [])

/-- Forget the `in_place` flag. -/
def stripIP (d : NodeData) : NodeData := { d with in_place := false }

/-- Two graphs that agree on everything except the `in_place` flags. -/
def StripAgree (g g' : GraphState) : Prop :=
  ∀ i, (lookupNode g' i).map stripIP = (lookupNode g i).map stripIP

lemma StripAgree_refl (g : GraphState) : StripAgree g g := fun _ => rfl

lemma StripAgree_trans {a b c : GraphState}
    (h1 : StripAgree a b) (h2 : StripAgree b c) : StripAgree a c :=
  fun i => (h2 i).trans (h1 i)

lemma StripAgree_mark {g : GraphState} {n : Nat} :
    StripAgree g (updateNode g n fun dd => { dd with in_place := true }) := by
  intro i
  rw [lookupNode_updateNode]
  split
  · rename_i h
    subst h
    cases lookupNode g i <;> rfl
  · rfl

/-- `in_place_supported` never reads an `in_place` flag, so it transports
along `StripAgree`. -/
lemma in_place_supported_agree {g0 g : GraphState} (h : StripAgree g0 g)
    {d0 d : NodeData} (hdd : stripIP d = stripIP d0) :
    in_place_supported g d = in_place_supported g0 d0 := by
  obtain ⟨k, ch, pa, dt, sh, di, ip⟩ := d
  obtain ⟨k0, ch0, pa0, dt0, sh0, di0, ip0⟩ := d0
  simp only [stripIP, NodeData.mk.injEq] at hdd
  obtain ⟨hk, hch, hpa, hdt, hsh, hdi, -⟩ := hdd
  subst hk
  subst hch
  subst hpa
  subst hdt
  subst hsh
  subst hdi
  rw [in_place_supported, in_place_supported]
  dsimp only
  cases ch with
  | nil => rfl
  | cons c cs =>
    cases cs with
    | cons c2 cs2 => rfl
    | nil =>
      dsimp only
      have hag := h c
      cases hl : lookupNode g c with
      | none =>
        cases hl0 : lookupNode g0 c with
        | none => rfl
        | some cd0 =>
          rw [hl, hl0] at hag
          cases hag
      | some cd =>
        cases hl0 : lookupNode g0 c with
        | none =>
          rw [hl, hl0] at hag
          cases hag
        | some cd0 =>
          rw [hl, hl0] at hag
          injection hag with hag
          obtain ⟨ck, cch, cpa, cdt, csh, cdi, cip⟩ := cd
          obtain ⟨ck0, cch0, cpa0, cdt0, csh0, cdi0, cip0⟩ := cd0
          simp only [stripIP, NodeData.mk.injEq] at hag
          obtain ⟨h1, h2, h3, h4, h5, h6, -⟩ := hag
          subst h1
          subst h2
          subst h3
          subst h4
          subst h5
          subst h6
          rfl

/-- The verdict the pass decides for a node, read off the initial graph. -/
def supported0 (g0 : GraphState) (n : Nat) : Bool :=
  match lookupNode g0 n with
  | some d0 => d0.kind == .functionOp && in_place_supported g0 d0
  | none => false


lemma stripIP_eq_components {d d0 : NodeData} (h : stripIP d = stripIP d0) :
    d.kind = d0.kind ∧ d.children = d0.children ∧ d.parents = d0.parents ∧
      d.dtype = d0.dtype ∧ d.shape = d0.shape ∧
      d.details_in_place = d0.details_in_place := by
  obtain ⟨k, ch, pa, dt, sh, di, ip⟩ := d
  obtain ⟨k0, ch0, pa0, dt0, sh0, di0, ip0⟩ := d0
  simp only [stripIP, NodeData.mk.injEq] at h
  obtain ⟨h1, h2, h3, h4, h5, h6, -⟩ := h
  exact ⟨h1, h2, h3, h4, h5, h6⟩

lemma supported0_eq {g0 g : GraphState} (h : StripAgree g0 g) (n : Nat)
    {d : NodeData} (hd : lookupNode g n = some d) :
    supported0 g0 n = (d.kind == NodeKind.functionOp && in_place_supported g d) := by
  rw [supported0]
  have hag := h n
  rw [hd] at hag
  cases hl0 : lookupNode g0 n with
  | none =>
    rw [hl0] at hag
    cases hag
  | some d0 =>
    rw [hl0] at hag
    injection hag with hag
    have hk := (stripIP_eq_components hag).1
    rw [hk, in_place_supported_agree h hag]

lemma lookup_agree_none {g0 g : GraphState} (h : StripAgree g0 g) {n : Nat}
    (hn : lookupNode g n = none) : lookupNode g0 n = none := by
  have hag := h n
  rw [hn] at hag
  cases hl0 : lookupNode g0 n with
  | none => rfl
  | some d0 =>
    rw [hl0] at hag
    cases hag

/-- The marking invariant: the running graph agrees with the initial one off
the flags, and a node's flag is set exactly when the node was visited, is
not still on the recursion stack `P`, and the pass's verdict holds for it. -/
def MarkInv (g0 g : GraphState) (v P : List Nat) : Prop :=
  StripAgree g0 g ∧
  ∀ n d, lookupNode g n = some d →
    (d.in_place = true ↔ (n ∈ v ∧ n ∉ P ∧ supported0 g0 n = true))

lemma ai_exec_mark (g0 : GraphState) :
    ∀ (fuel n : Nat) (g : GraphState) (v P : List Nat) (s' : GraphState × List Nat),
      ai_exec fuel n (g, v) = s' → P ⊆ v → MarkInv g0 g v P →
      v ⊆ s'.2 ∧ MarkInv g0 s'.1 s'.2 P := by
  intro fuel
  induction fuel with
  | zero =>
    intro n g v P s' hs hPv hInv
    rw [ai_exec] at hs
    subst hs
    exact ⟨fun _ h => h, hInv⟩
  | succ fuel ih =>
    intro n g v P s' hs hPv hInv
    have hnP : n ∈ v ∨ n ∉ P := by
      by_cases hv : n ∈ v
      · exact Or.inl hv
      · exact Or.inr fun hp => hv (hPv hp)
    rw [ai_exec] at hs
    split at hs
    · subst hs
      exact ⟨fun _ h => h, hInv⟩
    · rename_i hv
      split at hs
      · -- the id has no entry: only the visited set grows
        rename_i hln
        subst hs
        refine ⟨fun x hx => List.mem_cons_of_mem _ hx, hInv.1, ?_⟩
        intro m d hm
        have hmn : ¬m = n := by
          intro he
          rw [he, hln] at hm
          cases hm
        rw [hInv.2 m d hm]
        simp [List.mem_cons, hmn]
      · rename_i d hld
        -- the invariant holds for the state entering the child loop
        have hInv1 : MarkInv g0 g (n :: v) (n :: P) := by
          refine ⟨hInv.1, ?_⟩
          intro m d1 hm
          by_cases hmn : m = n
          · subst hmn
            constructor
            · intro hf
              exact absurd ((hInv.2 m d1 hm).mp hf).1 hv
            · intro hc
              exact absurd (List.mem_cons_self m P) hc.2.1
          · rw [hInv.2 m d1 hm]
            simp [List.mem_cons, hmn]
        have hPv1 : n :: P ⊆ n :: v := by
          intro x hx
          rcases List.mem_cons.mp hx with hx | hx
          · exact hx ▸ List.mem_cons_self n v
          · exact List.mem_cons_of_mem _ (hPv hx)
        have hfold : ∀ (cs : List Nat) (a b : GraphState × List Nat),
            cs.foldl (fun acc c => ai_exec fuel c acc) a = b →
            n :: P ⊆ a.2 → MarkInv g0 a.1 a.2 (n :: P) →
            a.2 ⊆ b.2 ∧ MarkInv g0 b.1 b.2 (n :: P) := by
          intro cs
          induction cs with
          | nil =>
            intro a b hb hPa hMa
            rw [List.foldl_nil] at hb
            subst hb
            exact ⟨fun _ h => h, hMa⟩
          | cons c cs ihc =>
            intro a b hb hPa hMa
            rw [List.foldl_cons] at hb
            obtain ⟨h1, h2⟩ := ih c a.1 a.2 (n :: P) (ai_exec fuel c (a.1, a.2)) rfl hPa hMa
            obtain ⟨h3, h4⟩ := ihc _ b hb (fun x hx => h1 (hPa hx)) h2
            exact ⟨fun x hx => h3 (h1 hx), h4⟩
        obtain ⟨hsub2, hM2⟩ := hfold d.children ((g, n :: v)) _ rfl
          hPv1 hInv1
        rw [ai_mark] at hs
        split at hs
        · rename_i d2 hld2
          split at hs
          · -- the node is marked
            rename_i hcond
            subst hs
            have hnv2 : n ∈ (d.children.foldl (fun acc c => ai_exec fuel c acc)
                (g, n :: v)).2 := hsub2 (List.mem_cons_self n v)
            have hnotP : n ∉ P := by
              rcases hnP with h | h
              · exact absurd h hv
              · exact h
            refine ⟨fun x hx => hsub2 (List.mem_cons_of_mem _ hx),
              StripAgree_trans hM2.1 StripAgree_mark, ?_⟩
            intro m dm hm
            rw [lookupNode_updateNode] at hm
            by_cases hmn : m = n
            · subst hmn
              rw [if_pos rfl, hld2] at hm
              injection hm with hm
              subst hm
              simp only
              constructor
              · intro _
                refine ⟨hnv2, hnotP, ?_⟩
                rw [supported0_eq hM2.1 m hld2]
                rw [Bool.and_eq_true, beq_iff_eq]
                exact ⟨hcond.1, hcond.2⟩
              · intro _
                trivial
            · rw [if_neg hmn] at hm
              rw [hM2.2 m dm hm]
              simp [List.mem_cons, hmn]
          · -- the node fails the check and is left unmarked
            rename_i hcond
            subst hs
            refine ⟨fun x hx => hsub2 (List.mem_cons_of_mem _ hx), hM2.1, ?_⟩
            intro m dm hm
            by_cases hmn : m = n
            · subst hmn
              have hflag := (hM2.2 m dm hm)
              constructor
              · intro hf
                exact absurd (List.mem_cons_self m P) ((hflag.mp hf).2.1)
              · intro hc
                have hsup := hc.2.2
                rw [supported0_eq hM2.1 m hm] at hsup
                rw [hld2] at hm
                injection hm with hm
                subst hm
                rw [Bool.and_eq_true, beq_iff_eq] at hsup
                exact absurd ⟨hsup.1, hsup.2⟩ hcond
            · rw [hM2.2 m dm hm]
              simp [List.mem_cons, hmn]
        · -- the node's entry cannot vanish: the graphs agree off the flags
          rename_i hld2
          exfalso
          have h0 : lookupNode g0 n = none := lookup_agree_none hM2.1 hld2
          have hag := hInv.1 n
          rw [hld, h0] at hag
          cases hag


/-- Visited nodes whose recursion has finished have all their children
visited. -/
def SemiClosed (g0 : GraphState) (v P : List Nat) : Prop :=
  ∀ m ∈ v, m ∉ P → ∀ d, lookupNode g0 m = some d → ∀ c ∈ d.children, c ∈ v

/-- How many ids of the graph are not yet visited. -/
def unvisited (g0 : GraphState) (v : List Nat) : Nat :=
  ((g0.map Prod.fst).filter fun x => decide (x ∉ v)).length

lemma unvisited_mono (g0 : GraphState) {v v2 : List Nat} (h : v ⊆ v2) :
    unvisited g0 v2 ≤ unvisited g0 v := by
  rw [unvisited, unvisited]
  induction g0.map Prod.fst with
  | nil => exact le_refl _
  | cons x xs ih =>
    rw [List.filter_cons, List.filter_cons]
    by_cases hv2 : x ∈ v2 <;> by_cases hv : x ∈ v
    · rw [if_neg (by simp [hv2]), if_neg (by simp [hv])]
      exact ih
    · rw [if_neg (by simp [hv2]), if_pos (by simp [hv])]
      simp only [List.length_cons]
      omega
    · exact absurd (h hv) hv2
    · rw [if_pos (by simp [hv2]), if_pos (by simp [hv])]
      simp only [List.length_cons]
      omega

lemma unvisited_cons_lt (g0 : GraphState) {v : List Nat} {n : Nat}
    (hn : n ∈ g0.map Prod.fst) (hnv : n ∉ v) :
    unvisited g0 (n :: v) < unvisited g0 v := by
  have hmono : ∀ l : List Nat,
      ((l.filter fun x => decide (x ∉ (n :: v))).length ≤
        (l.filter fun x => decide (x ∉ v)).length) := by
    intro l
    induction l with
    | nil => exact le_refl _
    | cons x xs ih =>
      rw [List.filter_cons, List.filter_cons]
      by_cases hx1 : x ∈ (n :: v) <;> by_cases hx2 : x ∈ v
      · rw [if_neg (by simp [hx1]), if_neg (by simp [hx2])]
        exact ih
      · rw [if_neg (by simp [hx1]), if_pos (by simp [hx2])]
        simp only [List.length_cons]
        omega
      · exact absurd (List.mem_cons_of_mem _ hx2) hx1
      · rw [if_pos (by simpa using hx1), if_pos (by simp [hx2])]
        simp only [List.length_cons]
        omega
  rw [unvisited, unvisited]
  have hL : ∀ L : List Nat, n ∈ L →
      ((L.filter fun x => decide (x ∉ (n :: v))).length <
        (L.filter fun x => decide (x ∉ v)).length) := by
    intro L
    induction L with
    | nil => intro hn2; cases hn2
    | cons x xs ih =>
      intro hn2
      rw [List.filter_cons, List.filter_cons]
      rcases List.mem_cons.mp hn2 with hx | hx
      · subst hx
        rw [if_neg (by simp), if_pos (by simp [hnv])]
        simp only [List.length_cons]
        exact Nat.lt_succ_of_le (hmono xs)
      · by_cases hxv : x ∈ v
        · rw [if_neg (by simp [List.mem_cons_of_mem n hxv]), if_neg (by simp [hxv])]
          exact ih hx
        · by_cases hxn : x ∈ (n :: v)
          · rw [if_neg (by simp [hxn]), if_pos (by simp [hxv])]
            simp only [List.length_cons]
            exact Nat.lt_succ_of_le (hmono xs)
          · rw [if_pos (by simpa using hxn), if_pos (by simp [hxv])]
            simp only [List.length_cons]
            exact Nat.succ_lt_succ (ih hx)
  exact hL _ hn


lemma ai_exec_closed (g0 : GraphState) :
    ∀ (fuel n : Nat) (g : GraphState) (v P : List Nat) (s' : GraphState × List Nat),
      ai_exec fuel n (g, v) = s' → StripAgree g0 g → SemiClosed g0 v P →
      unvisited g0 v < fuel →
      v ⊆ s'.2 ∧ n ∈ s'.2 ∧ StripAgree g0 s'.1 ∧ SemiClosed g0 s'.2 P := by
  intro fuel
  induction fuel with
  | zero =>
    intro n g v P s' hs hag hcl hfu
    exact absurd hfu (Nat.not_lt_zero _)
  | succ fuel ih =>
    intro n g v P s' hs hag hcl hfu
    rw [ai_exec] at hs
    split at hs
    · rename_i hv
      subst hs
      exact ⟨fun _ h => h, hv, hag, hcl⟩
    · rename_i hv
      split at hs
      · rename_i hln
        subst hs
        refine ⟨fun x hx => List.mem_cons_of_mem _ hx, List.mem_cons_self n v, hag, ?_⟩
        intro m hm hmP dm hdm c hc
        rcases List.mem_cons.mp hm with hm | hm
        · subst hm
          rw [lookup_agree_none hag hln] at hdm
          cases hdm
        · exact List.mem_cons_of_mem _ (hcl m hm hmP dm hdm c hc)
      · rename_i d hld
        have hd0 : ∃ d0, lookupNode g0 n = some d0 ∧ stripIP d = stripIP d0 := by
          have hagn := hag n
          rw [hld] at hagn
          cases hl0 : lookupNode g0 n with
          | none =>
            rw [hl0] at hagn
            cases hagn
          | some d0 =>
            rw [hl0] at hagn
            injection hagn with hagn
            exact ⟨d0, rfl, hagn⟩
        obtain ⟨d0, hld0, hdd0⟩ := hd0
        have hnkeys : n ∈ g0.map Prod.fst :=
          List.mem_map_of_mem Prod.fst (lookupNode_mem hld0)
        have hcl1 : SemiClosed g0 (n :: v) (n :: P) := by
          intro m hm hmP dm hdm c hc
          rcases List.mem_cons.mp hm with hm | hm
          · exact absurd (hm ▸ List.mem_cons_self n P) hmP
          · exact List.mem_cons_of_mem _
              (hcl m hm (fun h => hmP (List.mem_cons_of_mem _ h)) dm hdm c hc)
        have hfold : ∀ (cs : List Nat) (a b : GraphState × List Nat),
            cs.foldl (fun acc c => ai_exec fuel c acc) a = b →
            StripAgree g0 a.1 → SemiClosed g0 a.2 (n :: P) → n :: v ⊆ a.2 →
            a.2 ⊆ b.2 ∧ StripAgree g0 b.1 ∧ SemiClosed g0 b.2 (n :: P) ∧
              n :: v ⊆ b.2 ∧ (∀ c ∈ cs, c ∈ b.2) := by
          intro cs
          induction cs with
          | nil =>
            intro a b hb h1 h2 h3
            rw [List.foldl_nil] at hb
            subst hb
            exact ⟨fun _ h => h, h1, h2, h3, fun c hc => absurd hc (List.not_mem_nil c)⟩
          | cons c cs ihc =>
            intro a b hb h1 h2 h3
            rw [List.foldl_cons] at hb
            have hfua : unvisited g0 a.2 < fuel := by
              have h4 := unvisited_mono g0 h3
              have h5 := unvisited_cons_lt g0 hnkeys hv
              omega
            obtain ⟨hs1, hs2, hs3, hs4⟩ := ih c a.1 a.2 (n :: P)
              (ai_exec fuel c (a.1, a.2)) rfl h1 h2 hfua
            obtain ⟨ht1, ht2, ht3, ht4, ht5⟩ := ihc _ b hb hs3 hs4
              fun x hx => hs1 (h3 hx)
            refine ⟨fun x hx => ht1 (hs1 hx), ht2, ht3, ht4, ?_⟩
            intro c2 hc2
            rcases List.mem_cons.mp hc2 with hc2 | hc2
            · exact hc2 ▸ ht1 hs2
            · exact ht5 c2 hc2
        obtain ⟨hf1, hf2, hf3, hf4, hf5⟩ := hfold d.children (g, n :: v) _ rfl hag hcl1
          fun _ h => h
        have hcf : SemiClosed g0
            (d.children.foldl (fun acc c => ai_exec fuel c acc) (g, n :: v)).2 P := by
          intro m hm hmP dm hdm c hc
          by_cases hmn : m = n
          · subst hmn
            rw [hld0] at hdm
            injection hdm with hdm
            rw [← hdm] at hc
            have hch : d.children = d0.children := (stripIP_eq_components hdd0).2.1
            rw [← hch] at hc
            exact hf5 c hc
          · exact hf3 m hm
              (fun h => (List.mem_cons.mp h).elim (fun h2 => hmn h2) hmP) dm hdm c hc
        have hsub : v ⊆ (d.children.foldl (fun acc c => ai_exec fuel c acc)
            (g, n :: v)).2 := fun x hx => hf1 (List.mem_cons_of_mem _ hx)
        have hnin : n ∈ (d.children.foldl (fun acc c => ai_exec fuel c acc)
            (g, n :: v)).2 := hf4 (List.mem_cons_self n v)
        rw [ai_mark] at hs
        split at hs
        · rename_i d2 hld2
          split at hs
          · subst hs
            exact ⟨hsub, hnin, StripAgree_trans hf2 StripAgree_mark, hcf⟩
          · subst hs
            exact ⟨hsub, hnin, hf2, hcf⟩
        · subst hs
          exact ⟨hsub, hnin, hf2, hcf⟩


/-- Reachability through `children` edges, starting at a root. -/
inductive ReachesFrom (g : GraphState) : Nat → Nat → Prop
  | refl (n : Nat) : ReachesFrom g n n
  | step {a b c : Nat} {d : NodeData} : ReachesFrom g a b →
      lookupNode g b = some d → c ∈ d.children → ReachesFrom g a c

lemma closed_reach {g0 : GraphState} {v : List Nat}
    (hcl : SemiClosed g0 v []) {r n : Nat} (hr : r ∈ v)
    (hreach : ReachesFrom g0 r n) : n ∈ v := by
  induction hreach with
  | refl => exact hr
  | step hre hlk hc ih =>
    exact hcl _ ih (List.not_mem_nil _) _ hlk _ hc

lemma unvisited_le (g0 : GraphState) (v : List Nat) :
    unvisited g0 v ≤ g0.length := by
  rw [unvisited]
  calc ((g0.map Prod.fst).filter (fun i => decide (i ∉ v))).length
      ≤ (g0.map Prod.fst).length := List.length_filter_le _ _
    _ = g0.length := List.length_map _ _

lemma ai_run_facts (g0 : GraphState) (fuel : Nat) (hfu : g0.length < fuel) :
    ∀ (roots : List Nat) (a res : GraphState × List Nat),
      roots.foldl (fun acc r => if r ∈ acc.2 then acc else ai_exec fuel r acc)
        a = res →
      MarkInv g0 a.1 a.2 [] → SemiClosed g0 a.2 [] →
      a.2 ⊆ res.2 ∧ MarkInv g0 res.1 res.2 [] ∧ SemiClosed g0 res.2 [] ∧
        ∀ r ∈ roots, r ∈ res.2 := by
  intro roots
  induction roots with
  | nil =>
    intro a res hres hInv hcl
    rw [List.foldl_nil] at hres
    subst hres
    exact ⟨fun _ h => h, hInv, hcl, fun r hr => absurd hr (List.not_mem_nil r)⟩
  | cons r rs ih =>
    intro a res hres hInv hcl
    rw [List.foldl_cons] at hres
    by_cases hrv : r ∈ a.2
    · rw [if_pos hrv] at hres
      obtain ⟨h1, h2, h3, h4⟩ := ih a res hres hInv hcl
      refine ⟨h1, h2, h3, ?_⟩
      intro x hx
      rcases List.mem_cons.mp hx with hx | hx
      · exact hx ▸ h1 hrv
      · exact h4 x hx
    · rw [if_neg hrv] at hres
      have hfua : unvisited g0 a.2 < fuel :=
        Nat.lt_of_le_of_lt (unvisited_le g0 a.2) hfu
      obtain ⟨hm1, hm2⟩ := ai_exec_mark g0 fuel r a.1 a.2 []
        (ai_exec fuel r (a.1, a.2)) rfl (fun _ h => absurd h (List.not_mem_nil _))
        hInv
      obtain ⟨hc1, hc2, hc3, hc4⟩ := ai_exec_closed g0 fuel r a.1 a.2 []
        (ai_exec fuel r (a.1, a.2)) rfl hInv.1 hcl hfua
      obtain ⟨h1, h2, h3, h4⟩ := ih _ res hres hm2 hc4
      refine ⟨fun x hx => h1 (hm1 hx), h2, h3, ?_⟩
      intro x hx
      rcases List.mem_cons.mp hx with hx | hx
      · exact hx ▸ h1 hc2
      · exact h4 x hx

/-- C6: once the `array_inplace` pass has run from the output roots, a node
reachable from some root carries `in_place = true` exactly when it is a
`FunctionOpNode` satisfying `in_place_supported` on the input graph: exactly
one child, that child present with a non-scalar shape ruled out for the node,
matching dtype, a single parent, and function details allowing in-place. -/
theorem c6_in_place_iff (g0 : GraphState) (fuel : Nat) (roots : List Nat)
    (r n : Nat) (d0 d' : NodeData)
    (hflags : ∀ e ∈ g0, e.2.in_place = false)
    (hfuel : g0.length < fuel)
    (hr : r ∈ roots) (hreach : ReachesFrom g0 r n)
    (hd0 : lookupNode g0 n = some d0)
    (hd' : lookupNode (array_inplace_run fuel roots g0).1 n = some d') :
    d'.in_place = true ↔
      (d0.kind = NodeKind.functionOp ∧ in_place_supported g0 d0 = true) := by
  have hInv0 : MarkInv g0 g0 [] [] := by
    refine ⟨StripAgree_refl g0, ?_⟩
    intro m dm hdm
    constructor
    · intro hip
      have h0 := hflags (m, dm) (lookupNode_mem hdm)
      rw [h0] at hip
      cases hip
    · intro h
      exact absurd h.1 (List.not_mem_nil m)
  have hcl0 : SemiClosed g0 [] [] := by
    intro m hm
    exact absurd hm (List.not_mem_nil m)
  obtain ⟨-, hInv, hcl, hroots⟩ := ai_run_facts g0 fuel hfuel roots (g0, [])
    (array_inplace_run fuel roots g0) rfl hInv0 hcl0
  have hn : n ∈ (array_inplace_run fuel roots g0).2 :=
    closed_reach hcl (hroots r hr) hreach
  have hiff := hInv.2 n d' hd'
  rw [hiff]
  have hs0 : supported0 g0 n = (d0.kind == NodeKind.functionOp
      && in_place_supported g0 d0) := by
    rw [supported0, hd0]
  constructor
  · intro h
    have h3 := h.2.2
    rw [hs0, Bool.and_eq_true, beq_iff_eq] at h3
    exact h3
  · intro h
    refine ⟨hn, List.not_mem_nil n, ?_⟩
    rw [hs0, Bool.and_eq_true, beq_iff_eq]
    exact h

/-- Input graph for the `c6_in_place_iff` witness: an output over a supported
function over an input leaf. -/
def c6Graph : GraphState :=
  [(0, ⟨.output, [1], [], .Number, ⟨2, 1⟩, false, false⟩),
   (1, ⟨.functionOp, [2], [0], .Number, ⟨2, 1⟩, true, false⟩),
   (2, ⟨.input, [], [1], .Number, ⟨2, 1⟩, false, false⟩)]

def c6Node1 : NodeData := ⟨.functionOp, [2], [0], .Number, ⟨2, 1⟩, true, false⟩

def c6Final : NodeData := ⟨.functionOp, [2], [0], .Number, ⟨2, 1⟩, true, true⟩

theorem c6_in_place_iff_witness :
    c6Final.in_place = true ↔
      (c6Node1.kind = NodeKind.functionOp ∧
        in_place_supported c6Graph c6Node1 = true) :=
  c6_in_place_iff c6Graph 5 [0] 0 1 c6Node1 c6Final (by decide) (by decide)
    (by decide) (ReachesFrom.step (ReachesFrom.refl 0) rfl (by decide)) rfl rfl

end XlNumba
